import Mathlib

/-!
Verification of the fantasy-sim optimizer core (backend/server.js).

Shallow embedding of the optimizer core: the Slot Filler
(`buildLineupStrict`), its feasibility check (`canAdd`), the Diversity
Generator (`generateLineups`) and the small helpers (`symDiffSize`,
`uniqKey`, `sortByValue`, `fmt`).  JavaScript numbers are modelled with
exact arithmetic: salaries and the salary cap as integers, projections and
noise as rationals.  The ambient random source (`Math.random`) is made
explicit: each attempt receives a stream of noise draws (`draws`) and, when
the ranking temperature is non-zero, the randomized comparator sort is
modelled as an arbitrary caller-supplied reordering (`perms`) of each
position bucket, since a comparator that consults the random source on
every comparison guarantees nothing beyond producing some rearrangement.
The unbounded `while` loop of the generator is modelled with an explicit
fuel parameter; termination questions become statements about the fuel.
-/

namespace FantasySim

/-- A pool candidate: `{id, name, team, pos, salary, proj}` as loaded into
`PLAYERS`. -/
structure Player where
  id : String
  name : String
  team : String
  pos : String
  salary : ℤ
  proj : ℚ
deriving DecidableEq

/-- A per-attempt copy of a candidate: `{...p, projAdj}` — the original
player plus the temporary noised projection field. -/
structure NPlayer where
  base : Player
  projAdj : ℚ
deriving DecidableEq

/-- One roster slot: a name and the list of allowed positions. -/
structure Slot where
  name : String
  allow : List String
deriving DecidableEq

/-- The `stack` field of a roster config. -/
structure StackRule where
  needQBStack : Bool
  minReceivers : ℕ
  maxReceivers : ℕ
deriving DecidableEq

/-- A roster template (an entry of `ROSTERS`). -/
structure RosterCfg where
  cap : ℤ
  slots : List Slot
  stack : Option StackRule
  avoidDstConflict : Bool
  defaultMaxPerTeam : ℕ
deriving DecidableEq

/-- The value returned by a successful Slot Filler attempt:
`{ usedSalary, totalProj, lineup }`. -/
structure LineupResult where
  usedSalary : ℤ
  totalProj : ℚ
  lineup : List Player
deriving DecidableEq

/-- Models `fmt(x)` = `Number(x.toFixed(2))`: round to two decimals. -/
def fmt2 (x : ℚ) : ℚ := (round (x * 100) : ℤ) / 100

/-- Models `uniqKey(lineup)`: the member ids, sorted, joined with a bar. -/
def uniqKey (lineup : List Player) : String :=
  String.intercalate "|" ((lineup.map (fun p => p.id)).mergeSort (fun a b => decide (a ≤ b)))

/-- Models `symDiffSize(A, B)`: `|A| + |B| - 2 * overlap` where `overlap`
counts members of `B` whose id occurs among the ids of `A`. -/
def symDiffSize (A B : List Player) : ℤ :=
  (A.length : ℤ) + (B.length : ℤ) -
    2 * ((B.filter (fun p => decide (p.id ∈ A.map (fun q => q.id)))).length : ℤ)

/-- The value-density sort key `projAdj / max(1, salary)` used by
`sortByValue`. -/
def sortKey (p : NPlayer) : ℚ := p.projAdj / (max 1 p.base.salary : ℤ)

/-- The comparator of `sortByValue` at `temperature = 0`: descending value
density, ties broken by descending `projAdj`; as a "may come first"
boolean for a stable merge sort. -/
def valLe (a b : NPlayer) : Bool :=
  decide (sortKey b < sortKey a) ||
    (decide (sortKey a = sortKey b) && decide (b.projAdj ≤ a.projAdj))

/-- Models `sortByValue(arr, 0)` (zero temperature: no jitter), as a stable
sort by the comparator. -/
def sortByValue (arr : List NPlayer) : List NPlayer := arr.mergeSort valLe

/-- The ids in the `taken` set after the partial `lineup` has been built
(every `add` inserts exactly the id of the added player). -/
def takenIds (lineup : List NPlayer) : List String := lineup.map (fun p => p.base.id)

/-- The running `used` salary total of the partial lineup. -/
def usedSalary (lineup : List NPlayer) : ℤ := (lineup.map (fun p => p.base.salary)).sum

/-- The running `teamCount` entry for team `t`. -/
def teamCount (lineup : List NPlayer) (t : String) : ℕ :=
  (lineup.filter (fun p => decide (p.base.team = t))).length

/-- Models `canAdd(p, addingPos)`: the feasibility check of the Slot
Filler (already used, budget, per-team cap, DST mutual exclusion). -/
def canAdd (cfg : RosterCfg) (cap : ℤ) (maxPerTeam : ℕ)
    (lineup : List NPlayer) (p : NPlayer) (addingPos : String) : Bool :=
  if p.base.id ∈ takenIds lineup then false
  else if cap < usedSalary lineup + p.base.salary then false
  else if maxPerTeam ≠ 0 ∧ maxPerTeam < teamCount lineup p.base.team + 1 then false
  else if cfg.avoidDstConflict then
    if addingPos = "DST" then
      !(lineup.any (fun x => decide (x.base.pos ≠ "DST") && decide (x.base.team = p.base.team)))
    else
      !(lineup.any (fun x => decide (x.base.pos = "DST") && decide (x.base.team = p.base.team)))
  else true

/-- The merged eligible candidate list for a slot: the (ranked) position
buckets of all allowed positions, filtered to candidates not yet taken,
concatenated in the order of `allow`. -/
def eligibleFor (poolByPos : String → List NPlayer) (lineup : List NPlayer)
    (allow : List String) : List NPlayer :=
  (allow.map (fun pos => (poolByPos pos).filter
    (fun x => decide (x.base.id ∉ takenIds lineup)))).flatten

/-- Models `allowed.length === 1 ? allowed[0] : p.pos`. -/
def addingPosFor (allow : List String) (p : NPlayer) : String :=
  if allow.length = 1 then allow.headD "" else p.base.pos

/-- Window size `Math.ceil(n * 0.15)` in exact arithmetic. -/
def ceil15 (n : ℕ) : ℕ := (15 * n + 99) / 100

/-- Window size `Math.ceil(n * 0.25)` in exact arithmetic. -/
def ceil25 (n : ℕ) : ℕ := (25 * n + 99) / 100

/-- One slot of the fill loop of `buildLineupStrict`: restrict the merged
eligible list to the top `K = max(5, ceil(0.15 n))`, take the first
candidate passing `canAdd`; otherwise rebuild the eligible list, widen to
the top `max(K, ceil(0.25 n))` and retry once. -/
def fillSlot (cfg : RosterCfg) (cap : ℤ) (maxPerTeam : ℕ)
    (poolByPos : String → List NPlayer) (lineup : List NPlayer) (slot : Slot) :
    Option NPlayer :=
  let cands0 := eligibleFor poolByPos lineup slot.allow
  let K := max 5 (ceil15 cands0.length)
  let cands := cands0.take K
  match cands.find? (fun p => canAdd cfg cap maxPerTeam lineup p (addingPosFor slot.allow p)) with
  | some p => some p
  | none =>
      let more := eligibleFor poolByPos lineup slot.allow
      let more2 := more.take (max K (ceil25 more.length))
      more2.find? (fun p => canAdd cfg cap maxPerTeam lineup p (addingPosFor slot.allow p))

/-- The slot loop: fill slots in template order, appending each accepted
pick; if a slot finds no pick even after widening, the attempt gives up
(`lineup.length = 0; break`), modelled as `none`. -/
def fillSlots (cfg : RosterCfg) (cap : ℤ) (maxPerTeam : ℕ)
    (poolByPos : String → List NPlayer) :
    List Slot → List NPlayer → Option (List NPlayer)
  | [], lineup => some lineup
  | slot :: rest, lineup =>
    match fillSlot cfg cap maxPerTeam poolByPos lineup slot with
    | none => none
    | some p => fillSlots cfg cap maxPerTeam poolByPos rest (lineup ++ [p])

/-- The NFL stack validation after all slots are filled: when
`stack?.needQBStack`, the first QB of the lineup must have at least
`minReceivers || 1` same-team WR/TE lineup members. -/
def stackOk (cfg : RosterCfg) (lineup : List NPlayer) : Bool :=
  match cfg.stack with
  | none => true
  | some st =>
    if st.needQBStack then
      match lineup.find? (fun p => decide (p.base.pos = "QB")) with
      | none => false
      | some qb =>
          let recs := lineup.filter (fun p =>
            (decide (p.base.pos = "WR") || decide (p.base.pos = "TE")) &&
              decide (p.base.team = qb.base.team))
          decide ((if st.minReceivers = 0 then 1 else st.minReceivers) ≤ recs.length)
    else true

/-- Models the JavaScript truthiness fallback `a || b` on numbers (zero is
falsy), as used in `p.projAdj || p.proj || 0`. -/
def jsOrQ (a b : ℚ) : ℚ := if a = 0 then b else a

/-- One full attempt of `buildLineupStrict` given the per-attempt ranked
position buckets: fill all slots, check the length and the stack rule, and
on success report the used salary, the formatted total of the
`projAdj || proj` values, and the members with `projAdj` stripped. -/
def attemptLineup (cfg : RosterCfg) (cap : ℤ) (maxPerTeam : ℕ)
    (poolByPos : String → List NPlayer) : Option LineupResult :=
  match fillSlots cfg cap maxPerTeam poolByPos cfg.slots [] with
  | none => none
  | some lineup =>
    if lineup.length ≠ cfg.slots.length then none
    else if !(stackOk cfg lineup) then none
    else some
      { usedSalary := usedSalary lineup
        totalProj := fmt2 ((lineup.map (fun p => jsOrQ p.projAdj p.base.proj)).sum)
        lineup := lineup.map (fun p => p.base) }

/-- The best-so-far update of the attempt loop: keep the candidate when
there is no best yet, or when it has higher `totalProj`, or equal
`totalProj` and lower `usedSalary`. -/
def updateBest : Option LineupResult → Option LineupResult → Option LineupResult
  | best, none => best
  | none, some c => some c
  | some b, some c =>
      if b.totalProj < c.totalProj ∨ (c.totalProj = b.totalProj ∧ c.usedSalary < b.usedSalary)
      then some c else some b

/-- Models `players.map(p => ({ ...p, projAdj: p.proj + (noise ? rnd(-noise, noise) : 0) }))`:
each candidate is copied and given a noised projection; `draw i` stands for
the value `rnd(-noise, noise) / noise` drawn for the i-th candidate. -/
def noisedPool (noise : ℚ) (draw : ℕ → ℚ) : List Player → ℕ → List NPlayer
  | [], _ => []
  | p :: rest, i =>
      { base := p, projAdj := p.proj + (if noise = 0 then 0 else noise * draw i) } ::
        noisedPool noise draw rest (i + 1)

/-- The position bucket `poolByPos[pos]` before ranking: the noised pool
filtered to candidates of position `pos`, in pool order. -/
def posBucket (pool : List NPlayer) (pos : String) : List NPlayer :=
  pool.filter (fun p => decide (p.base.pos = pos))

/-- The ranked position buckets of one attempt: at zero temperature the
deterministic `sortByValue`; at non-zero temperature the randomized
comparator sort, modelled as the caller-supplied reordering `perm`. -/
def attemptPools (players : List Player) (noise temp : ℚ) (draw : ℕ → ℚ)
    (perm : String → List NPlayer → List NPlayer) (pos : String) : List NPlayer :=
  let pool := noisedPool noise draw players 0
  if temp = 0 then sortByValue (posBucket pool pos) else perm pos (posBucket pool pos)

/-- Models `salaryCap || rosterCfg.cap` (zero is falsy). -/
def effCap (salaryCap : ℤ) (cfg : RosterCfg) : ℤ :=
  if salaryCap = 0 then cfg.cap else salaryCap

/-- Models `buildLineupStrict(players, rosterCfg, {salaryCap, noise,
temperature, maxPerTeam, tries})`: run `tries` attempts, each on a freshly
noised and ranked pool, and keep the best successful one. -/
def buildLineupStrict (players : List Player) (cfg : RosterCfg) (salaryCap : ℤ)
    (noise temp : ℚ) (maxPerTeam : ℕ) (tries : ℕ)
    (draws : ℕ → ℕ → ℚ) (perms : ℕ → String → List NPlayer → List NPlayer) :
    Option LineupResult :=
  (List.range tries).foldl
    (fun best i =>
      updateBest best
        (attemptLineup cfg (effCap salaryCap cfg) maxPerTeam
          (attemptPools players noise temp (draws i) (perms i))))
    none

/-- The mutable state of the `while` loop of `generateLineups`: the
accepted list, the seen key set, the current noise and temperature, and a
counter indexing the random draws of the next Slot Filler invocation. -/
structure GenState where
  out : List LineupResult
  seen : List String
  noise : ℚ
  temp : ℚ
  it : ℕ

/-- The uniqueness gate of `generateLineups`: the candidate must differ by
at least `minDiff` from every accepted lineup and its key must be unseen. -/
def acceptOk (out : List LineupResult) (seen : List String) (minDiff : ℤ)
    (cand : LineupResult) : Bool :=
  out.all (fun L => decide (minDiff ≤ symDiffSize L.lineup cand.lineup)) &&
    decide (uniqKey cand.lineup ∉ seen)

/-- One loop body of `generateLineups` after a successful build: accept
the candidate or bump the randomness, then apply the empty-output noise
expansion `if (out.length === 0 && noise < 2.5) noise += 0.05`. -/
def genStepState (minDiff : ℤ) (st : GenState) (cand : LineupResult) : GenState :=
  let st1 :=
    if acceptOk st.out st.seen minDiff cand then
      { st with out := st.out ++ [cand], seen := st.seen ++ [uniqKey cand.lineup],
                it := st.it + 1 }
    else
      { st with noise := st.noise * (102 / 100), temp := st.temp * (102 / 100),
                it := st.it + 1 }
  if st1.out.length = 0 ∧ st1.noise < 5 / 2 then { st1 with noise := st1.noise + 1 / 20 }
  else st1

/-- The `while (out.length < count)` loop of `generateLineups`, with an
explicit fuel bound (the loop itself has no attempt ceiling).  The boolean
result records whether the loop exited through one of its own exits
(`out.length >= count`, or a failed build) within the given fuel; `false`
means the fuel ran out while the loop still wanted to continue. -/
def genLoop (players : List Player) (cfg : RosterCfg) (salaryCap : ℤ)
    (maxPerTeam : ℕ) (count : ℕ) (minDiff : ℤ) (tries : ℕ)
    (draws : ℕ → ℕ → ℕ → ℚ)
    (perms : ℕ → ℕ → String → List NPlayer → List NPlayer) :
    ℕ → GenState → List LineupResult × Bool
  | 0, st => (st.out, decide (count ≤ st.out.length))
  | fuel + 1, st =>
    if count ≤ st.out.length then (st.out, true)
    else
      match buildLineupStrict players cfg salaryCap st.noise st.temp maxPerTeam tries
          (draws st.it) (perms st.it) with
      | none => (st.out, true)
      | some cand =>
          genLoop players cfg salaryCap maxPerTeam count minDiff tries draws perms
            fuel (genStepState minDiff st cand)

/-- The final ordering of `generateLineups`: `totalProj` descending, ties
by `usedSalary` ascending, as a stable-sort comparator. -/
def outLe (a b : LineupResult) : Bool :=
  decide (b.totalProj < a.totalProj) ||
    (decide (b.totalProj = a.totalProj) && decide (a.usedSalary ≤ b.usedSalary))

/-- The initial loop state of `generateLineups`. -/
def initGenState (noise temp : ℚ) : GenState :=
  { out := [], seen := [], noise := noise, temp := temp, it := 0 }

/-- Models `generateLineups(players, rosterCfg, {...})` under the explicit
fuel bound: run the loop, then sort the accepted lineups. -/
def generateLineups (players : List Player) (cfg : RosterCfg) (salaryCap : ℤ)
    (maxPerTeam : ℕ) (count : ℕ) (minDiff : ℤ) (tries : ℕ) (noise temp : ℚ)
    (draws : ℕ → ℕ → ℕ → ℚ)
    (perms : ℕ → ℕ → String → List NPlayer → List NPlayer) (fuel : ℕ) :
    List LineupResult :=
  ((genLoop players cfg salaryCap maxPerTeam count minDiff tries draws perms fuel
      (initGenState noise temp)).1).mergeSort outLe

/-- The multi-lineup response body of `POST /api/lineups/optimize`:
`{ count, lineups }` (plus fields we do not model), with the empty-pool
early return `{ count: 0, lineups: [] }`. -/
structure OptimizeResponse where
  count : ℕ
  lineups : List LineupResult
deriving DecidableEq

/-- The multi-lineup branch of the `/api/lineups/optimize` handler: empty
pool gives an explicit empty result, otherwise the generated list is
returned with `count: many.length`. -/
def optimizeMany (players : List Player) (cfg : RosterCfg) (salaryCap : ℤ)
    (maxPerTeam : ℕ) (count : ℕ) (minDiff : ℤ) (tries : ℕ) (noise temp : ℚ)
    (draws : ℕ → ℕ → ℕ → ℚ)
    (perms : ℕ → ℕ → String → List NPlayer → List NPlayer) (fuel : ℕ) :
    OptimizeResponse :=
  if players.length = 0 then { count := 0, lineups := [] }
  else
    let many := generateLineups players cfg salaryCap maxPerTeam count minDiff tries
      noise temp draws perms fuel
    { count := many.length, lineups := many }

/-- The feasibility invariant maintained over the partial lineup while the
slot loop runs: distinct ids, budget respected, per-team cap respected,
and no DST / same-team offense conflict. -/
def StateOk (cfg : RosterCfg) (cap : ℤ) (mpt : ℕ) (lineup : List NPlayer) : Prop :=
  (takenIds lineup).Nodup ∧
  usedSalary lineup ≤ cap ∧
  (mpt ≠ 0 → ∀ t, teamCount lineup t ≤ mpt) ∧
  (cfg.avoidDstConflict = true →
    ∀ d ∈ lineup, d.base.pos = "DST" → ∀ x ∈ lineup, x.base.pos ≠ "DST" →
      x.base.team ≠ d.base.team)

/-- Executable form of invariant (a)+(b): the lineup has exactly one
member per slot, in template order, each of an allowed position. -/
def slotsMatch : List Slot → List Player → Bool
  | [], [] => true
  | sl :: slots, p :: ps => decide (p.pos ∈ sl.allow) && slotsMatch slots ps
  | _, _ => false

/-- Executable form of invariant (e): every occurring team is used at most
`mpt` times (vacuous when the per-team cap is zero, i.e. disabled). -/
def teamInvB (mpt : ℕ) (l : List Player) : Bool :=
  decide (mpt = 0) ||
    l.all (fun p => decide ((l.filter (fun q => decide (q.team = p.team))).length ≤ mpt))

/-- Executable form of invariant (f): when the template requires a QB
stack, some QB of the lineup has at least `minReceivers` same-team WR/TE
lineup members. -/
def stackInvB (cfg : RosterCfg) (l : List Player) : Bool :=
  match cfg.stack with
  | none => true
  | some st =>
    if st.needQBStack then
      l.any (fun qb => decide (qb.pos = "QB") &&
        decide (st.minReceivers ≤ (l.filter (fun p =>
          (decide (p.pos = "WR") || decide (p.pos = "TE")) &&
            decide (p.team = qb.team))).length))
    else true

/-- Executable form of invariant (g): when the mutual-exclusion rule is
set, no non-DST member shares a team with a DST member. -/
def dstInvB (cfg : RosterCfg) (l : List Player) : Bool :=
  !cfg.avoidDstConflict ||
    l.all (fun d => !(decide (d.pos = "DST")) ||
      l.all (fun x => decide (x.pos = "DST") || decide (x.team ≠ d.team)))

/-- The seven invariants of the data model for a returned lineup, as one
executable check: (a) size = slot count and (b) slot-wise allowed
positions (`slotsMatch`), (c) distinct ids, (d) total salary within the
cap, (e) per-team cap, (f) stack rule, (g) DST mutual exclusion. -/
def invariantsHold (cfg : RosterCfg) (cap : ℤ) (mpt : ℕ) (l : List Player) : Bool :=
  slotsMatch cfg.slots l &&
    decide ((l.map (fun p => p.id)).Nodup) &&
    decide ((l.map (fun p => p.salary)).sum ≤ cap) &&
    teamInvB mpt l &&
    stackInvB cfg l &&
    dstInvB cfg l

/-- Concrete QB used in witness instances. -/
def pQB : Player := ⟨"qb1", "QB One", "KC", "QB", 7000, 20⟩

/-- Concrete same-team WR used in witness instances. -/
def pWR : Player := ⟨"wr1", "WR One", "KC", "WR", 6000, 15⟩

/-- A small two-slot roster template with a QB stack requirement and the
DST mutual-exclusion rule switched on. -/
def cfgW : RosterCfg :=
  ⟨50000, [⟨"QB", ["QB"]⟩, ⟨"WR1", ["WR"]⟩], some ⟨true, 1, 2⟩, true, 3⟩

/-- The identity reordering, a valid randomized-sort outcome. -/
def permId : ℕ → String → List NPlayer → List NPlayer := fun _ _ l => l

/-- The all-zero noise-draw stream. -/
def drawsZero : ℕ → ℕ → ℚ := fun _ _ => 0

/-- The lineup the Slot Filler returns on `[pQB, pWR]` with `cfgW`. -/
def resW : LineupResult := ⟨13000, 35, [pQB, pWR]⟩

/-- The noised copy of `pQB` at zero noise. -/
def qbN : NPlayer := ⟨pQB, 20⟩

/-- The noised copy of `pWR` at zero noise. -/
def wrN : NPlayer := ⟨pWR, 15⟩

/-- The ranked position buckets of the witness attempt. -/
def pbpW : String → List NPlayer :=
  attemptPools [pQB, pWR] 0 0 (drawsZero 0) (permId 0)

/-- A one-slot roster template with no stack rule and no DST exclusion. -/
def cfg1 : RosterCfg := ⟨50000, [⟨"QB", ["QB"]⟩], none, false, 3⟩

/-- A noise-draw stream returning one half, i.e. `rnd(-noise, noise)`
came out at `noise / 2`. -/
def drawsHalf : ℕ → ℕ → ℚ := fun _ _ => 1 / 2

/-- The noised copy of `pQB` at noise 1 with draw one half. -/
def qbN3 : NPlayer := ⟨pQB, 41 / 2⟩

/-- The result of the C3 counterexample build: the reported total is the
noised projection, not the original one. -/
def resC3 : LineupResult := ⟨7000, 41 / 2, [pQB]⟩

/-- The ranked buckets of the C3 counterexample attempt. -/
def pbp3 : String → List NPlayer :=
  attemptPools [pQB] 1 0 (drawsHalf 0) (permId 0)

/-- The first window size in the words of the spec: the top
`max(5, ceil(0.15 * n))` entries of the eligible list. -/
def specWindow1 (n : ℕ) : ℕ := max 5 (Nat.ceil ((15 / 100 : ℚ) * n))

/-- The widened window size in the words of the spec: the top
`max(K, ceil(0.25 * n))` entries of the re-built eligible list. -/
def specWindow2 (K n : ℕ) : ℕ := max K (Nat.ceil ((25 / 100 : ℚ) * n))

/-- The slot-filling step as the spec words it: restrict the merged ranked
eligible list of length `n` to its top `max(5, ceil(0.15 n))` entries and
accept the first one passing all feasibility checks; if none passes,
widen exactly once to the top `max(K, ceil(0.25 n))` entries of the
re-built eligible list and retry; otherwise fail. -/
def fillSlotSpec (cfg : RosterCfg) (cap : ℤ) (mpt : ℕ)
    (pbp : String → List NPlayer) (lineup : List NPlayer) (slot : Slot) :
    Option NPlayer :=
  let elig := eligibleFor pbp lineup slot.allow
  let K := specWindow1 elig.length
  match (elig.take K).find?
      (fun p => canAdd cfg cap mpt lineup p (addingPosFor slot.allow p)) with
  | some p => some p
  | none =>
      (elig.take (specWindow2 K elig.length)).find?
        (fun p => canAdd cfg cap mpt lineup p (addingPosFor slot.allow p))

/-- The lineup returned on every attempt in the C2 scenario (single
feasible lineup, zero-valued noise draws). -/
def resC2 : LineupResult := ⟨7000, 20, [pQB]⟩

lemma takenIds_append (l : List NPlayer) (p : NPlayer) :
    takenIds (l ++ [p]) = takenIds l ++ [p.base.id] := by
  simp [takenIds]

lemma usedSalary_append (l : List NPlayer) (p : NPlayer) :
    usedSalary (l ++ [p]) = usedSalary l + p.base.salary := by
  simp [usedSalary]

lemma teamCount_append (l : List NPlayer) (p : NPlayer) (t : String) :
    teamCount (l ++ [p]) t = teamCount l t + (if p.base.team = t then 1 else 0) := by
  simp only [teamCount, List.filter_append, List.length_append]
  congr 1
  by_cases h : p.base.team = t <;> simp [h]

lemma canAdd_true {cfg : RosterCfg} {cap : ℤ} {mpt : ℕ} {lineup : List NPlayer}
    {p : NPlayer} {ap : String} (h : canAdd cfg cap mpt lineup p ap = true) :
    p.base.id ∉ takenIds lineup ∧
    usedSalary lineup + p.base.salary ≤ cap ∧
    (mpt ≠ 0 → teamCount lineup p.base.team + 1 ≤ mpt) ∧
    (cfg.avoidDstConflict = true →
      (ap = "DST" → ∀ x ∈ lineup, x.base.pos ≠ "DST" → x.base.team ≠ p.base.team) ∧
      (ap ≠ "DST" → ∀ x ∈ lineup, x.base.pos = "DST" → x.base.team ≠ p.base.team)) := by
  unfold canAdd at h
  split_ifs at h with h1 h2 h3 h4 h5
  · refine ⟨h1, le_of_not_lt h2, fun hm => ?_, fun _ => ?_⟩
    · rcases not_and_or.mp h3 with hcon | hcon
      · exact absurd hm (not_not.mpr (not_not.mp hcon))
      · exact le_of_not_lt hcon
    · constructor
      · intro _
        have hh : ∀ x ∈ lineup, ¬x.base.pos = "DST" → ¬x.base.team = p.base.team := by
          simpa using h
        exact hh
      · intro hap
        exact absurd h5 hap
  · refine ⟨h1, le_of_not_lt h2, fun hm => ?_, fun _ => ?_⟩
    · rcases not_and_or.mp h3 with hcon | hcon
      · exact absurd hm (not_not.mpr (not_not.mp hcon))
      · exact le_of_not_lt hcon
    · constructor
      · intro hap
        exact absurd hap h5
      · intro _
        have hh : ∀ x ∈ lineup, x.base.pos = "DST" → ¬x.base.team = p.base.team := by
          simpa using h
        exact hh
  · refine ⟨h1, le_of_not_lt h2, fun hm => ?_, fun hdst => absurd hdst h4⟩
    rcases not_and_or.mp h3 with hcon | hcon
    · exact absurd hm (not_not.mpr (not_not.mp hcon))
    · exact le_of_not_lt hcon

lemma StateOk_append {cfg : RosterCfg} {cap : ℤ} {mpt : ℕ} {lineup : List NPlayer}
    {p : NPlayer} (hs : StateOk cfg cap mpt lineup)
    (hc : canAdd cfg cap mpt lineup p p.base.pos = true) :
    StateOk cfg cap mpt (lineup ++ [p]) := by
  obtain ⟨hid, hsal, hteam, hdst⟩ := canAdd_true hc
  obtain ⟨snd, ssal, steam, sdst⟩ := hs
  refine ⟨?_, ?_, ?_, ?_⟩
  · rw [takenIds_append]
    refine List.nodup_append.mpr ⟨snd, by simp, ?_⟩
    intro a ha
    simp only [List.mem_singleton]
    intro heq
    exact hid (heq ▸ ha)
  · rw [usedSalary_append]; exact hsal
  · intro hm t
    rw [teamCount_append]
    by_cases ht : p.base.team = t
    · simpa [ht] using ht ▸ hteam hm
    · simpa [ht] using steam hm t
  · intro havoid d hd hdpos x hx hxpos
    rcases List.mem_append.mp hd with hd | hd
    · rcases List.mem_append.mp hx with hx | hx
      · exact sdst havoid d hd hdpos x hx hxpos
      · -- x = p, p is not a DST, d is an existing DST
        have hxp : x = p := List.mem_singleton.mp hx
        have hppos : p.base.pos ≠ "DST" := by rw [hxp] at hxpos; exact hxpos
        have hne := ((hdst havoid).2 hppos) d hd hdpos
        rw [hxp]
        exact fun heq => hne heq.symm
    · -- d = p, p is a DST, x is an existing non-DST
      have hdp : d = p := List.mem_singleton.mp hd
      rcases List.mem_append.mp hx with hx | hx
      · have hdp2 : p.base.pos = "DST" := by rw [hdp] at hdpos; exact hdpos
        have hne := ((hdst havoid).1 hdp2) x hx hxpos
        rw [hdp]
        exact hne
      · have hxp : x = p := List.mem_singleton.mp hx
        rw [hxp] at hxpos
        rw [hdp] at hdpos
        exact absurd hdpos hxpos

lemma mem_eligibleFor {pbp : String → List NPlayer} {lineup : List NPlayer}
    {allow : List String} {p : NPlayer} :
    p ∈ eligibleFor pbp lineup allow ↔
      ∃ pos ∈ allow, p ∈ pbp pos ∧ p.base.id ∉ takenIds lineup := by
  simp only [eligibleFor, List.mem_flatten, List.mem_map]
  constructor
  · rintro ⟨l, ⟨pos, hpos, rfl⟩, hp⟩
    rcases List.mem_filter.mp hp with ⟨hmem, hdec⟩
    exact ⟨pos, hpos, hmem, by simpa using hdec⟩
  · rintro ⟨pos, hpos, hmem, hid⟩
    exact ⟨_, ⟨pos, hpos, rfl⟩, List.mem_filter.mpr ⟨hmem, by simpa using hid⟩⟩

lemma fillSlot_some {cfg : RosterCfg} {cap : ℤ} {mpt : ℕ}
    {pbp : String → List NPlayer} {lineup : List NPlayer} {slot : Slot} {p : NPlayer}
    (h : fillSlot cfg cap mpt pbp lineup slot = some p) :
    p ∈ eligibleFor pbp lineup slot.allow ∧
      canAdd cfg cap mpt lineup p (addingPosFor slot.allow p) = true := by
  simp only [fillSlot] at h
  split at h
  next q hq =>
    cases h
    refine ⟨List.take_subset _ _ (List.mem_of_find?_eq_some hq), ?_⟩
    exact @List.find?_some NPlayer
      (fun q => canAdd cfg cap mpt lineup q (addingPosFor slot.allow q)) _ _ hq
  next hq =>
    refine ⟨List.take_subset _ _ (List.mem_of_find?_eq_some h), ?_⟩
    exact @List.find?_some NPlayer
      (fun q => canAdd cfg cap mpt lineup q (addingPosFor slot.allow q)) _ _ h

lemma addingPosFor_eq {pbp : String → List NPlayer}
    (HB : ∀ pos q, q ∈ pbp pos → q.base.pos = pos)
    {lineup : List NPlayer} {allow : List String} {p : NPlayer}
    (hp : p ∈ eligibleFor pbp lineup allow) :
    addingPosFor allow p = p.base.pos := by
  obtain ⟨pos, hpos, hmem, -⟩ := mem_eligibleFor.mp hp
  have hppos : p.base.pos = pos := HB pos p hmem
  unfold addingPosFor
  split
  case isTrue hlen =>
    obtain ⟨a, rfl⟩ := List.length_eq_one.mp hlen
    have : pos = a := List.mem_singleton.mp hpos
    simp [hppos, this]
  case isFalse => rfl

lemma pos_mem_allow {pbp : String → List NPlayer}
    (HB : ∀ pos q, q ∈ pbp pos → q.base.pos = pos)
    {lineup : List NPlayer} {allow : List String} {p : NPlayer}
    (hp : p ∈ eligibleFor pbp lineup allow) : p.base.pos ∈ allow := by
  obtain ⟨pos, hpos, hmem, -⟩ := mem_eligibleFor.mp hp
  rw [HB pos p hmem]
  exact hpos

lemma fillSlots_some (cfg : RosterCfg) (cap : ℤ) (mpt : ℕ)
    (pbp : String → List NPlayer)
    (HB : ∀ pos q, q ∈ pbp pos → q.base.pos = pos) :
    ∀ slots lineup full,
      fillSlots cfg cap mpt pbp slots lineup = some full →
      StateOk cfg cap mpt lineup →
      StateOk cfg cap mpt full ∧
        ∃ picks, full = lineup ++ picks ∧
          List.Forall₂ (fun (sl : Slot) (q : NPlayer) => q.base.pos ∈ sl.allow) slots picks ∧
          ∀ q ∈ picks, ∃ pos, q ∈ pbp pos := by
  intro slots
  induction slots with
  | nil =>
    intro lineup full h hs
    cases h
    exact ⟨hs, [], by simp, List.Forall₂.nil, by simp⟩
  | cons slot rest ih =>
    intro lineup full h hs
    simp only [fillSlots] at h
    split at h
    next => exact absurd h (by simp)
    next p hp =>
      have helig := fillSlot_some hp
      have hap : addingPosFor slot.allow p = p.base.pos := addingPosFor_eq HB helig.1
      have hcan : canAdd cfg cap mpt lineup p p.base.pos = true := hap ▸ helig.2
      have hs2 : StateOk cfg cap mpt (lineup ++ [p]) := StateOk_append hs hcan
      obtain ⟨hsf, picks, rfl, hfa, hpool⟩ := ih (lineup ++ [p]) full h hs2
      refine ⟨hsf, p :: picks, by simp, ?_, ?_⟩
      · exact List.Forall₂.cons (pos_mem_allow HB helig.1) hfa
      · intro q hq
        rcases List.mem_cons.mp hq with rfl | hq
        · obtain ⟨pos, -, hmem, -⟩ := mem_eligibleFor.mp helig.1
          exact ⟨pos, hmem⟩
        · exact hpool q hq

lemma attemptLineup_some {cfg : RosterCfg} {cap : ℤ} {mpt : ℕ}
    {pbp : String → List NPlayer} {res : LineupResult}
    (h : attemptLineup cfg cap mpt pbp = some res) :
    ∃ full, fillSlots cfg cap mpt pbp cfg.slots [] = some full ∧
      full.length = cfg.slots.length ∧ stackOk cfg full = true ∧
      res = { usedSalary := usedSalary full,
              totalProj := fmt2 ((full.map (fun p => jsOrQ p.projAdj p.base.proj)).sum),
              lineup := full.map (fun p => p.base) } := by
  unfold attemptLineup at h
  split at h
  next => exact absurd h (by simp)
  next full hfull =>
    by_cases hlen : full.length ≠ cfg.slots.length
    · rw [if_pos hlen] at h
      exact absurd h (by simp)
    · rw [if_neg hlen] at h
      by_cases hstack : (!stackOk cfg full) = true
      · rw [if_pos hstack] at h
        exact absurd h (by simp)
      · rw [if_neg hstack] at h
        exact ⟨full, hfull, not_not.mp hlen, by simpa using hstack,
          (Option.some.inj h).symm⟩

lemma stackOk_true {cfg : RosterCfg} {lineup : List NPlayer}
    (h : stackOk cfg lineup = true) :
    ∀ st, cfg.stack = some st → st.needQBStack = true →
      ∃ qb ∈ lineup, qb.base.pos = "QB" ∧
        st.minReceivers ≤ (lineup.filter (fun p =>
          (decide (p.base.pos = "WR") || decide (p.base.pos = "TE")) &&
            decide (p.base.team = qb.base.team))).length := by
  intro st hst hneed
  unfold stackOk at h
  rw [hst] at h
  simp only [hneed, if_true] at h
  split at h
  next => exact absurd h (by simp)
  next qb hqb =>
    refine ⟨qb, List.mem_of_find?_eq_some hqb, ?_, ?_⟩
    · have := @List.find?_some NPlayer (fun p => decide (p.base.pos = "QB")) _ _ hqb
      simpa using this
    · have hle := of_decide_eq_true h
      by_cases hz : st.minReceivers = 0
      · omega
      · rw [if_neg hz] at hle
        exact hle

lemma filter_map_base (full : List NPlayer) (pr : Player → Bool) :
    (full.map (fun p => p.base)).filter pr =
      (full.filter (fun p => pr p.base)).map (fun p => p.base) := by
  rw [List.filter_map]
  rfl

lemma slotsMatch_of_forall₂ : ∀ {slots : List Slot} {full : List NPlayer},
    List.Forall₂ (fun (sl : Slot) (q : NPlayer) => q.base.pos ∈ sl.allow) slots full →
    slotsMatch slots (full.map (fun p => p.base)) = true := by
  intro slots full h
  induction h with
  | nil => rfl
  | cons ha _ ih => simpa [slotsMatch, ha] using ih

lemma invariants_of_full {cfg : RosterCfg} {cap : ℤ} {mpt : ℕ} {full : List NPlayer}
    (hso : StateOk cfg cap mpt full)
    (hfa : List.Forall₂ (fun (sl : Slot) (q : NPlayer) => q.base.pos ∈ sl.allow) cfg.slots full)
    (hstack : stackOk cfg full = true) :
    invariantsHold cfg cap mpt (full.map (fun p => p.base)) = true := by
  obtain ⟨hnd, hsal, hteam, hdst⟩ := hso
  unfold invariantsHold
  refine (Bool.and_eq_true _ _).mpr ⟨?_, ?_⟩
  · refine (Bool.and_eq_true _ _).mpr ⟨?_, ?_⟩
    · refine (Bool.and_eq_true _ _).mpr ⟨?_, ?_⟩
      · refine (Bool.and_eq_true _ _).mpr ⟨?_, ?_⟩
        · refine (Bool.and_eq_true _ _).mpr ⟨?_, ?_⟩
          · exact slotsMatch_of_forall₂ hfa
          · -- distinct ids
            have : (full.map (fun p => p.base)).map (fun p => p.id) = takenIds full := by
              simp [takenIds]
            rw [this]
            exact decide_eq_true hnd
        · -- salary sum within cap
          have : ((full.map (fun p => p.base)).map (fun p => p.salary)).sum = usedSalary full := by
            rw [List.map_map]
            rfl
          rw [this]
          exact decide_eq_true hsal
      · -- per-team cap
        unfold teamInvB
        by_cases hz : mpt = 0
        · simp [hz]
        · refine Bool.or_eq_true_iff.mpr (Or.inr ?_)
          refine List.all_eq_true.mpr ?_
          intro p hp
          have hcount : ((full.map (fun q => q.base)).filter
              (fun q => decide (q.team = p.team))).length = teamCount full p.team := by
            rw [filter_map_base, List.length_map]
            rfl
          rw [hcount]
          exact decide_eq_true (hteam hz p.team)
    · -- stack rule
      unfold stackInvB
      rcases hcfg : cfg.stack with _ | st
      · rfl
      · dsimp only
        by_cases hqs : st.needQBStack = true
        · rw [if_pos hqs]
          obtain ⟨qb, hqbmem, hqbpos, hqbcount⟩ := stackOk_true hstack st hcfg hqs
          refine List.any_eq_true.mpr ⟨qb.base, List.mem_map_of_mem _ hqbmem, ?_⟩
          refine (Bool.and_eq_true _ _).mpr ⟨decide_eq_true hqbpos, decide_eq_true ?_⟩
          have hcount : ((full.map (fun q => q.base)).filter (fun p =>
              (decide (p.pos = "WR") || decide (p.pos = "TE")) &&
                decide (p.team = qb.base.team))).length =
              (full.filter (fun p =>
                (decide (p.base.pos = "WR") || decide (p.base.pos = "TE")) &&
                  decide (p.base.team = qb.base.team))).length := by
            rw [filter_map_base, List.length_map]
          rw [hcount]
          exact hqbcount
        · rw [if_neg hqs]
  · -- DST mutual exclusion
    unfold dstInvB
    by_cases hav : cfg.avoidDstConflict = true
    · rw [hav]
      refine Bool.or_eq_true_iff.mpr (Or.inr ?_)
      refine List.all_eq_true.mpr ?_
      intro d hd
      obtain ⟨dn, hdn, rfl⟩ := List.mem_map.mp hd
      by_cases hdpos : dn.base.pos = "DST"
      · refine Bool.or_eq_true_iff.mpr (Or.inr ?_)
        refine List.all_eq_true.mpr ?_
        intro x hx
        obtain ⟨xn, hxn, rfl⟩ := List.mem_map.mp hx
        by_cases hxpos : xn.base.pos = "DST"
        · exact Bool.or_eq_true_iff.mpr (Or.inl (decide_eq_true hxpos))
        · refine Bool.or_eq_true_iff.mpr (Or.inr (decide_eq_true ?_))
          exact hdst hav dn hdn hdpos xn hxn hxpos
      · simp [hdpos]
    · have hfalse : cfg.avoidDstConflict = false := Bool.not_eq_true _ |>.mp hav
      simp [hfalse]

lemma updateBest_some {b c : Option LineupResult} {r : LineupResult}
    (h : updateBest b c = some r) : b = some r ∨ c = some r := by
  rcases b with _ | b <;> rcases c with _ | c
  · exact absurd h (by simp [updateBest])
  · right; simpa [updateBest] using h
  · left; simpa [updateBest] using h
  · simp only [updateBest] at h
    split_ifs at h
    · right; exact h
    · left; exact h

lemma foldl_updateBest_prop (f : ℕ → Option LineupResult) (Q : LineupResult → Prop)
    (hf : ∀ i res, f i = some res → Q res) :
    ∀ (l : List ℕ) (init : Option LineupResult),
      (∀ res, init = some res → Q res) →
      ∀ res, l.foldl (fun best i => updateBest best (f i)) init = some res → Q res := by
  intro l
  induction l with
  | nil =>
    intro init hinit res h
    simp only [List.foldl_nil] at h
    exact hinit res h
  | cons i rest ih =>
    intro init hinit res h
    simp only [List.foldl_cons] at h
    refine ih _ ?_ res h
    intro r hr
    rcases updateBest_some hr with h1 | h1
    · exact hinit r h1
    · exact hf i r h1

lemma buildLineupStrict_prop {players : List Player} {cfg : RosterCfg} {salaryCap : ℤ}
    {noise temp : ℚ} {mpt tries : ℕ} {draws : ℕ → ℕ → ℚ}
    {perms : ℕ → String → List NPlayer → List NPlayer} (Q : LineupResult → Prop)
    (hatt : ∀ i res, attemptLineup cfg (effCap salaryCap cfg) mpt
      (attemptPools players noise temp (draws i) (perms i)) = some res → Q res) :
    ∀ res, buildLineupStrict players cfg salaryCap noise temp mpt tries draws perms = some res →
      Q res := by
  intro res h
  exact foldl_updateBest_prop _ Q hatt (List.range tries) none (by simp) res h

lemma noisedPool_base (noise : ℚ) (draw : ℕ → ℚ) :
    ∀ (l : List Player) (i : ℕ), (noisedPool noise draw l i).map (fun p => p.base) = l := by
  intro l
  induction l with
  | nil => intro i; rfl
  | cons p rest ih =>
    intro i
    simp only [noisedPool, List.map_cons]
    rw [ih]

lemma mem_noisedPool_base {noise : ℚ} {draw : ℕ → ℚ} {q : NPlayer}
    {l : List Player} {i : ℕ} (h : q ∈ noisedPool noise draw l i) : q.base ∈ l := by
  have hb := noisedPool_base noise draw l i
  rw [← hb]
  exact List.mem_map_of_mem _ h

lemma mem_noisedPool_zero (draw : ℕ → ℚ) (q : NPlayer) :
    ∀ (l : List Player) (i : ℕ), q ∈ noisedPool 0 draw l i → q.projAdj = q.base.proj := by
  intro l
  induction l with
  | nil => intro i h; cases h
  | cons p rest ih =>
    intro i h
    rcases List.mem_cons.mp h with rfl | h
    · simp
    · exact ih (i + 1) h

lemma mem_posBucket {pool : List NPlayer} {pos : String} {q : NPlayer}
    (h : q ∈ posBucket pool pos) : q ∈ pool ∧ q.base.pos = pos := by
  have hm := List.mem_filter.mp h
  exact ⟨hm.1, by simpa using hm.2⟩

lemma mem_attemptPools {players : List Player} {noise temp : ℚ} {draw : ℕ → ℚ}
    {perm : String → List NPlayer → List NPlayer} {pos : String} {q : NPlayer}
    (hperm : ∀ pos l x, x ∈ perm pos l → x ∈ l)
    (h : q ∈ attemptPools players noise temp draw perm pos) :
    q ∈ posBucket (noisedPool noise draw players 0) pos := by
  simp only [attemptPools] at h
  split at h
  · unfold sortByValue at h
    exact List.mem_mergeSort.mp h
  · exact hperm pos _ q h

lemma attemptPools_posOk {players : List Player} {noise temp : ℚ} {draw : ℕ → ℚ}
    {perm : String → List NPlayer → List NPlayer}
    (hperm : ∀ pos l x, x ∈ perm pos l → x ∈ l) :
    ∀ pos q, q ∈ attemptPools players noise temp draw perm pos → q.base.pos = pos :=
  fun _ _ h => (mem_posBucket (mem_attemptPools hperm h)).2

lemma attemptPools_baseMem {players : List Player} {noise temp : ℚ} {draw : ℕ → ℚ}
    {perm : String → List NPlayer → List NPlayer}
    (hperm : ∀ pos l x, x ∈ perm pos l → x ∈ l) :
    ∀ pos q, q ∈ attemptPools players noise temp draw perm pos → q.base ∈ players :=
  fun _ _ h => mem_noisedPool_base (mem_posBucket (mem_attemptPools hperm h)).1

lemma StateOk_nil {cfg : RosterCfg} {cap : ℤ} {mpt : ℕ} (hcap : 0 ≤ cap) :
    StateOk cfg cap mpt ([] : List NPlayer) := by
  refine ⟨by simp [takenIds], by simpa [usedSalary] using hcap, ?_, ?_⟩
  · intro _ t
    simp [teamCount]
  · intro _ d hd
    exact absurd hd (List.not_mem_nil d)

lemma build_invariants {players : List Player} {cfg : RosterCfg} {salaryCap : ℤ}
    {mpt : ℕ} (hcap : 0 ≤ effCap salaryCap cfg) (noise temp : ℚ) (tries : ℕ)
    (draws : ℕ → ℕ → ℚ) (perms : ℕ → String → List NPlayer → List NPlayer)
    (hperm : ∀ i pos l x, x ∈ perms i pos l → x ∈ l) :
    ∀ res, buildLineupStrict players cfg salaryCap noise temp mpt tries draws perms = some res →
      invariantsHold cfg (effCap salaryCap cfg) mpt res.lineup = true := by
  refine buildLineupStrict_prop _ ?_
  intro i res hres
  obtain ⟨full, hfill, hlen, hstack, rfl⟩ := attemptLineup_some hres
  have HB : ∀ pos q, q ∈ attemptPools players noise temp (draws i) (perms i) pos →
      q.base.pos = pos :=
    attemptPools_posOk (fun pos l x hx => hperm i pos l x hx)
  obtain ⟨hsoF, picks, heq, hfa, hpool⟩ :=
    fillSlots_some cfg (effCap salaryCap cfg) mpt _ HB cfg.slots [] full hfill
      (StateOk_nil hcap)
  have hpicks : full = picks := by simpa using heq
  rw [hpicks] at hsoF hstack ⊢
  exact invariants_of_full hsoF hfa hstack

lemma genStepState_out (minDiff : ℤ) (st : GenState) (cand : LineupResult) :
    (genStepState minDiff st cand).out = st.out ++ [cand] ∨
      (genStepState minDiff st cand).out = st.out := by
  simp only [genStepState]
  split_ifs <;> simp

lemma genLoop_prop {players : List Player} {cfg : RosterCfg} {salaryCap : ℤ}
    {mpt count : ℕ} {minDiff : ℤ} {tries : ℕ} {draws : ℕ → ℕ → ℕ → ℚ}
    {perms : ℕ → ℕ → String → List NPlayer → List NPlayer}
    (P : LineupResult → Prop)
    (hbuild : ∀ (noise temp : ℚ) (it : ℕ) res,
      buildLineupStrict players cfg salaryCap noise temp mpt tries (draws it) (perms it) =
        some res → P res) :
    ∀ (fuel : ℕ) (st : GenState), (∀ L ∈ st.out, P L) →
      ∀ L ∈ (genLoop players cfg salaryCap mpt count minDiff tries draws perms fuel st).1,
        P L := by
  intro fuel
  induction fuel with
  | zero =>
    intro st hst L hL
    simp only [genLoop] at hL
    exact hst L hL
  | succ n ih =>
    intro st hst L hL
    simp only [genLoop] at hL
    by_cases hc : count ≤ st.out.length
    · rw [if_pos hc] at hL
      exact hst L hL
    · rw [if_neg hc] at hL
      rcases hbd : buildLineupStrict players cfg salaryCap st.noise st.temp mpt tries
          (draws st.it) (perms st.it) with _ | cand
      · rw [hbd] at hL
        exact hst L hL
      · rw [hbd] at hL
        refine ih (genStepState minDiff st cand) ?_ L hL
        intro M hM
        rcases genStepState_out minDiff st cand with hout | hout
        · rw [hout] at hM
          rcases List.mem_append.mp hM with hM | hM
          · exact hst M hM
          · have hMc : M = cand := List.mem_singleton.mp hM
            rw [hMc]
            exact hbuild st.noise st.temp st.it cand hbd
        · rw [hout] at hM
          exact hst M hM

/-- C1: every lineup returned by a Slot Filler call (`buildLineupStrict`),
and hence every lineup appearing in a multi-lineup response
(`generateLineups`), satisfies all seven invariants of the data model:
slot count and per-slot allowed positions, distinct ids, total salary at
most the effective cap, per-team cap, the QB-stack rule when required, and
the DST mutual-exclusion rule when set.  The hypotheses say that the cap
is non-negative and that the randomized comparator sort only rearranges
its input list. -/
theorem C1_returned_lineups_satisfy_invariants
    (players : List Player) (cfg : RosterCfg) (salaryCap : ℤ) (mpt : ℕ)
    (hcap : 0 ≤ effCap salaryCap cfg) :
    (∀ (noise temp : ℚ) (tries : ℕ) (draws : ℕ → ℕ → ℚ)
        (perms : ℕ → String → List NPlayer → List NPlayer),
      (∀ i pos l x, x ∈ perms i pos l → x ∈ l) →
      ∀ res, buildLineupStrict players cfg salaryCap noise temp mpt tries draws perms =
          some res →
        invariantsHold cfg (effCap salaryCap cfg) mpt res.lineup = true) ∧
    (∀ (count : ℕ) (minDiff : ℤ) (tries : ℕ) (noise temp : ℚ)
        (draws : ℕ → ℕ → ℕ → ℚ)
        (perms : ℕ → ℕ → String → List NPlayer → List NPlayer),
      (∀ it i pos l x, x ∈ perms it i pos l → x ∈ l) →
      ∀ (fuel : ℕ) res,
        res ∈ generateLineups players cfg salaryCap mpt count minDiff tries noise temp
          draws perms fuel →
        invariantsHold cfg (effCap salaryCap cfg) mpt res.lineup = true) := by
  constructor
  · intro noise temp tries draws perms hperm res hres
    exact build_invariants hcap noise temp tries draws perms hperm res hres
  · intro count minDiff tries noise temp draws perms hperm fuel res hres
    unfold generateLineups at hres
    have hmem := List.mem_mergeSort.mp hres
    refine genLoop_prop
      (fun r => invariantsHold cfg (effCap salaryCap cfg) mpt r.lineup = true)
      ?_ fuel (initGenState noise temp) ?_ res hmem
    · intro noise2 temp2 it r hr
      exact build_invariants hcap noise2 temp2 tries (draws it) (perms it)
        (fun i pos l x hx => hperm it i pos l x hx) r hr
    · intro L hL
      exact absurd hL (by simp [initGenState])

lemma poolW_eval : noisedPool 0 (drawsZero 0) [pQB, pWR] 0 = [qbN, wrN] := by
  norm_num [noisedPool, drawsZero, pQB, pWR, qbN, wrN]

lemma pbpW_QB : pbpW "QB" = [qbN] := by
  simp only [pbpW, attemptPools]
  rw [poolW_eval]
  simp [posBucket, qbN, wrN, pQB, pWR, sortByValue, List.mergeSort_singleton]

lemma pbpW_WR : pbpW "WR" = [wrN] := by
  simp only [pbpW, attemptPools]
  rw [poolW_eval]
  simp [posBucket, qbN, wrN, pQB, pWR, sortByValue, List.mergeSort_singleton]

lemma fillW_1 : fillSlot cfgW 50000 3 pbpW [] ⟨"QB", ["QB"]⟩ = some qbN := by
  simp only [fillSlot, eligibleFor, List.map_cons, List.map_nil, List.flatten_cons,
    List.flatten_nil, List.append_nil]
  rw [pbpW_QB]
  simp [canAdd, takenIds, usedSalary, teamCount, addingPosFor, ceil15, ceil25,
    qbN, pQB, cfgW]

lemma fillW_2 : fillSlot cfgW 50000 3 pbpW [qbN] ⟨"WR1", ["WR"]⟩ = some wrN := by
  simp only [fillSlot, eligibleFor, List.map_cons, List.map_nil, List.flatten_cons,
    List.flatten_nil, List.append_nil]
  rw [pbpW_WR]
  simp [canAdd, takenIds, usedSalary, teamCount, addingPosFor, ceil15, ceil25,
    qbN, wrN, pQB, pWR, cfgW]

lemma attW_eval : attemptLineup cfgW 50000 3 pbpW = some resW := by
  have hslots : cfgW.slots = [⟨"QB", ["QB"]⟩, ⟨"WR1", ["WR"]⟩] := rfl
  simp only [attemptLineup, hslots, fillSlots, fillW_1, fillW_2, List.nil_append,
    List.singleton_append]
  simp [stackOk, cfgW, qbN, wrN, pQB, pWR, usedSalary, jsOrQ, resW]
  norm_num [fmt2, round_eq]

lemma buildW_eval :
    buildLineupStrict [pQB, pWR] cfgW 50000 0 0 3 1 drawsZero permId = some resW := by
  have heff : effCap 50000 cfgW = 50000 := by norm_num [effCap]
  simp only [buildLineupStrict, List.range_succ, List.range_zero, List.nil_append,
    List.foldl_cons, List.foldl_nil, heff]
  have hpb : attemptPools [pQB, pWR] 0 0 (drawsZero 0) (permId 0) = pbpW := rfl
  rw [hpb, attW_eval]
  rfl

/-- Witness for C1: the cap hypothesis is satisfied at a concrete
template, and the invariants check evaluates to true on the concretely
returned lineup. -/
theorem C1_witness :
    (0 ≤ effCap 50000 cfgW) ∧
      invariantsHold cfgW (effCap 50000 cfgW) 3 resW.lineup = true :=
  ⟨by decide,
    (C1_returned_lineups_satisfy_invariants [pQB, pWR] cfgW 50000 3 (by decide)).1
      0 0 1 drawsZero permId (fun _ _ _ _ hx => hx) resW buildW_eval⟩

lemma fillSlots_sub (cfg : RosterCfg) (cap : ℤ) (mpt : ℕ)
    (pbp : String → List NPlayer) :
    ∀ slots lineup full, fillSlots cfg cap mpt pbp slots lineup = some full →
      ∃ picks, full = lineup ++ picks ∧ ∀ q ∈ picks, ∃ pos, q ∈ pbp pos := by
  intro slots
  induction slots with
  | nil =>
    intro lineup full h
    cases h
    exact ⟨[], by simp, by simp⟩
  | cons slot rest ih =>
    intro lineup full h
    simp only [fillSlots] at h
    split at h
    next => exact absurd h (by simp)
    next p hp =>
      obtain ⟨picks, rfl, hpool⟩ := ih (lineup ++ [p]) full h
      obtain ⟨pos, -, hmem, -⟩ := mem_eligibleFor.mp (fillSlot_some hp).1
      refine ⟨p :: picks, by simp, ?_⟩
      intro q hq
      rcases List.mem_cons.mp hq with rfl | hq
      · exact ⟨pos, hmem⟩
      · exact hpool q hq

/-- C10: whenever the Slot Filler returns a lineup, the reported
`usedSalary` is exactly the sum of the members' salary fields, and every
returned member is an original pool candidate (the per-attempt copy with
the temporary `projAdj` field stripped, all other fields intact). -/
theorem C10_usedSalary_and_members
    (players : List Player) (cfg : RosterCfg) (salaryCap : ℤ) (noise temp : ℚ)
    (mpt tries : ℕ) (draws : ℕ → ℕ → ℚ)
    (perms : ℕ → String → List NPlayer → List NPlayer)
    (hperm : ∀ i pos l x, x ∈ perms i pos l → x ∈ l) :
    ∀ res, buildLineupStrict players cfg salaryCap noise temp mpt tries draws perms =
        some res →
      res.usedSalary = (res.lineup.map (fun p => p.salary)).sum ∧
        ∀ m ∈ res.lineup, m ∈ players := by
  refine buildLineupStrict_prop _ ?_
  intro i res hres
  obtain ⟨full, hfill, -, -, rfl⟩ := attemptLineup_some hres
  constructor
  · show usedSalary full = ((full.map (fun p => p.base)).map (fun p => p.salary)).sum
    rw [List.map_map]
    rfl
  · intro m hm
    obtain ⟨q, hq, rfl⟩ := List.mem_map.mp hm
    obtain ⟨picks, hpe, hpool⟩ :=
      fillSlots_sub cfg (effCap salaryCap cfg) mpt _ cfg.slots [] full hfill
    have hfp : full = picks := by simpa using hpe
    obtain ⟨pos, hmem⟩ := hpool q (hfp ▸ hq)
    exact attemptPools_baseMem (fun pos l x hx => hperm i pos l x hx) pos q hmem

/-- Witness for C10: the reordering hypothesis holds for the identity
reordering, and the conclusion is checked on a concretely returned
lineup. -/
theorem C10_witness :
    resW.usedSalary = (resW.lineup.map (fun p => p.salary)).sum ∧
      ∀ m ∈ resW.lineup, m ∈ [pQB, pWR] :=
  C10_usedSalary_and_members [pQB, pWR] cfgW 50000 0 0 3 1 drawsZero permId
    (fun _ _ _ _ hx => hx) resW buildW_eval

/-- C9: no mutation of the shared candidate pool: the per-attempt noised
pool consists of copies that carry the temporary `projAdj` field, and
stripping that field recovers the input pool exactly — every entry keeps
its original id, name, team, pos, salary and proj, in order. -/
theorem C9_pool_not_mutated (noise : ℚ) (draw : ℕ → ℚ) (players : List Player) (i : ℕ) :
    (noisedPool noise draw players i).map (fun p => p.base) = players :=
  noisedPool_base noise draw players i

lemma noisedPool_zero_canon (d : ℕ → ℚ) :
    ∀ (l : List Player) (i : ℕ),
      noisedPool 0 d l i = l.map (fun p => ⟨p, p.proj⟩) := by
  intro l
  induction l with
  | nil => intro i; rfl
  | cons p rest ih =>
    intro i
    simp only [noisedPool, List.map_cons, if_pos, add_zero]
    rw [ih (i + 1)]

lemma attemptPools_zero (players : List Player) (d : ℕ → ℚ)
    (p : String → List NPlayer → List NPlayer) :
    attemptPools players 0 0 d p =
      fun pos => sortByValue (posBucket (players.map (fun q => ⟨q, q.proj⟩)) pos) := by
  funext pos
  simp [attemptPools, noisedPool_zero_canon]

/-- C5: determinism at zero randomness: with `noise = 0` and
`temperature = 0`, the result of the Slot Filler does not depend on the
random source at all — two runs over the same pool, template, cap,
per-team cap and attempt budget, with arbitrary and possibly different
random streams, return the same value (same members, same `usedSalary`,
same `totalProj`). -/
theorem C5_deterministic_at_zero_randomness
    (players : List Player) (cfg : RosterCfg) (salaryCap : ℤ) (mpt tries : ℕ)
    (d1 d2 : ℕ → ℕ → ℚ) (p1 p2 : ℕ → String → List NPlayer → List NPlayer) :
    buildLineupStrict players cfg salaryCap 0 0 mpt tries d1 p1 =
      buildLineupStrict players cfg salaryCap 0 0 mpt tries d2 p2 := by
  simp only [buildLineupStrict, attemptPools_zero]

/-- C7: the feasibility checks and the lineup invariants are monotone in
the salary cap: anything accepted or feasible at cap `c` stays accepted
and feasible at any cap `c2 ≥ c`, so raising the cap never loses a
feasible lineup and never decreases the best achievable total value. -/
theorem C7_budget_monotonicity (cfg : RosterCfg) (mpt : ℕ) (c c2 : ℤ) (h : c ≤ c2) :
    (∀ lineup p ap, canAdd cfg c mpt lineup p ap = true →
      canAdd cfg c2 mpt lineup p ap = true) ∧
    (∀ l, invariantsHold cfg c mpt l = true → invariantsHold cfg c2 mpt l = true) ∧
    (∀ l, invariantsHold cfg c mpt l = true →
      ∃ l2, invariantsHold cfg c2 mpt l2 = true ∧
        (l.map (fun p => p.proj)).sum ≤ (l2.map (fun p => p.proj)).sum) := by
  have hmono : ∀ lineup p ap, canAdd cfg c mpt lineup p ap = true →
      canAdd cfg c2 mpt lineup p ap = true := by
    intro lineup p ap hc
    obtain ⟨h1, h2, h3, h4⟩ := canAdd_true hc
    unfold canAdd
    rw [if_neg h1, if_neg (not_lt.mpr (le_trans h2 h))]
    by_cases h5 : mpt ≠ 0 ∧ mpt < teamCount lineup p.base.team + 1
    · exact absurd (h3 h5.1) (not_le.mpr h5.2)
    · rw [if_neg h5]
      by_cases h6 : cfg.avoidDstConflict = true
      · rw [if_pos h6]
        by_cases h7 : ap = "DST"
        · rw [if_pos h7]
          have hno := (h4 h6).1 h7
          simp only [Bool.not_eq_true', List.any_eq_false]
          intro x hx
          simp only [Bool.and_eq_true, decide_eq_true_eq, not_and]
          intro hxp
          exact hno x hx hxp
        · rw [if_neg h7]
          have hno := (h4 h6).2 h7
          simp only [Bool.not_eq_true', List.any_eq_false]
          intro x hx
          simp only [Bool.and_eq_true, decide_eq_true_eq, not_and]
          intro hxp
          exact hno x hx hxp
      · rw [if_neg h6]
  have hinv : ∀ l, invariantsHold cfg c mpt l = true → invariantsHold cfg c2 mpt l = true := by
    intro l hl
    simp only [invariantsHold, Bool.and_eq_true] at hl ⊢
    obtain ⟨⟨⟨⟨⟨hsm, hnd⟩, hsal⟩, htm⟩, hst⟩, hdst⟩ := hl
    refine ⟨⟨⟨⟨⟨hsm, hnd⟩, ?_⟩, htm⟩, hst⟩, hdst⟩
    exact decide_eq_true (le_trans (of_decide_eq_true hsal) h)
  refine ⟨hmono, hinv, ?_⟩
  intro l hl
  exact ⟨l, hinv l hl, le_refl _⟩

/-- Witness for C7: a concrete cap increase with a concretely feasible
lineup. -/
theorem C7_witness :
    (13000 : ℤ) ≤ 20000 ∧ invariantsHold cfgW 20000 3 resW.lineup = true :=
  ⟨by decide,
    (C7_budget_monotonicity cfgW 3 13000 20000 (by decide)).2.1 resW.lineup (by decide)⟩

lemma pool3_eval : noisedPool 1 (drawsHalf 0) [pQB] 0 = [qbN3] := by
  norm_num [noisedPool, drawsHalf, pQB, qbN3]

lemma pbp3_QB : pbp3 "QB" = [qbN3] := by
  simp only [pbp3, attemptPools]
  rw [pool3_eval]
  simp [posBucket, qbN3, pQB, sortByValue, List.mergeSort_singleton]

lemma fill3_eval : fillSlot cfg1 50000 3 pbp3 [] ⟨"QB", ["QB"]⟩ = some qbN3 := by
  simp only [fillSlot, eligibleFor, List.map_cons, List.map_nil, List.flatten_cons,
    List.flatten_nil, List.append_nil]
  rw [pbp3_QB]
  simp [canAdd, takenIds, usedSalary, teamCount, addingPosFor, ceil15, ceil25,
    qbN3, pQB, cfg1]

lemma att3_eval : attemptLineup cfg1 50000 3 pbp3 = some resC3 := by
  have hslots : cfg1.slots = [⟨"QB", ["QB"]⟩] := rfl
  simp only [attemptLineup, hslots, fillSlots, fill3_eval, List.nil_append]
  simp [stackOk, cfg1, qbN3, pQB, usedSalary, resC3]
  norm_num [jsOrQ, fmt2, round_eq]

lemma build3_eval :
    buildLineupStrict [pQB] cfg1 50000 1 0 3 1 drawsHalf permId = some resC3 := by
  have heff : effCap 50000 cfg1 = 50000 := by norm_num [effCap]
  simp only [buildLineupStrict, List.range_succ, List.range_zero, List.nil_append,
    List.foldl_cons, List.foldl_nil, heff]
  have hpb : attemptPools [pQB] 1 0 (drawsHalf 0) (permId 0) = pbp3 := rfl
  rw [hpb, att3_eval]
  rfl

/-- C3 counterexample: a concrete successful Slot Filler run at noise 1
(draw one half, a legal outcome of `rnd(-1, 1)`) whose reported total is
the noised value 20.5, not the two-decimal rounding of the sum of the
members' original projections (20): the code sums `p.projAdj || p.proj`
before stripping `projAdj`, so the noise does leak into the reported
total. -/
theorem C3_counterexample :
    buildLineupStrict [pQB] cfg1 50000 1 0 3 1 drawsHalf permId = some resC3 ∧
      resC3.totalProj ≠ fmt2 ((resC3.lineup.map (fun p => p.proj)).sum) := by
  refine ⟨build3_eval, ?_⟩
  norm_num [resC3, pQB, fmt2, round_eq]

/-- C3 amended: when `noise = 0` (so each per-attempt `projAdj` equals the
original projection), the reported total equals the two-decimal rounding
of the sum of the members' original projections; with non-zero noise the
reported total is computed from the noised values instead. -/
theorem C3_amended_total_uses_noised_values
    (players : List Player) (cfg : RosterCfg) (salaryCap : ℤ) (temp : ℚ)
    (mpt tries : ℕ) (draws : ℕ → ℕ → ℚ)
    (perms : ℕ → String → List NPlayer → List NPlayer)
    (hperm : ∀ i pos l x, x ∈ perms i pos l → x ∈ l) :
    ∀ res, buildLineupStrict players cfg salaryCap 0 temp mpt tries draws perms =
        some res →
      res.totalProj = fmt2 ((res.lineup.map (fun p => p.proj)).sum) := by
  refine buildLineupStrict_prop _ ?_
  intro i res hres
  obtain ⟨full, hfill, -, -, rfl⟩ := attemptLineup_some hres
  have hproj : ∀ q ∈ full, q.projAdj = q.base.proj := by
    intro q hq
    obtain ⟨picks, hpe, hpool⟩ :=
      fillSlots_sub cfg (effCap salaryCap cfg) mpt _ cfg.slots [] full hfill
    have hfp : full = picks := by simpa using hpe
    obtain ⟨pos, hmem⟩ := hpool q (hfp ▸ hq)
    have hbucket :=
      (mem_attemptPools (fun pos l x hx => hperm i pos l x hx) hmem)
    exact mem_noisedPool_zero (draws i) q players 0 (mem_posBucket hbucket).1
  show fmt2 ((full.map (fun p => jsOrQ p.projAdj p.base.proj)).sum) =
    fmt2 (((full.map (fun p => p.base)).map (fun p => p.proj)).sum)
  rw [List.map_map]
  congr 1
  refine congrArg List.sum (List.map_congr_left ?_)
  intro q hq
  rw [hproj q hq]
  simp [jsOrQ]

/-- Witness for C3 amended: checked on a concrete zero-noise build. -/
theorem C3_amended_witness :
    resW.totalProj = fmt2 ((resW.lineup.map (fun p => p.proj)).sum) :=
  C3_amended_total_uses_noised_values [pQB, pWR] cfgW 50000 0 3 1 drawsZero permId
    (fun _ _ _ _ hx => hx) resW buildW_eval

lemma ceil_frac_eq (num den n : ℕ) (hden : 0 < den) :
    Nat.ceil ((num / den : ℚ) * n) = (num * n + (den - 1)) / den := by
  have hx : ((num / den : ℚ) * n) = ((num * n : ℕ) : ℚ) / (den : ℚ) := by
    push_cast
    ring
  rw [hx]
  have hdQ : (0 : ℚ) < (den : ℚ) := by exact_mod_cast hden
  rcases Nat.eq_zero_or_pos (num * n) with hr | hr
  · rw [hr]
    have h0 : (den - 1) / den = 0 := Nat.div_eq_of_lt (by omega)
    simp [h0]
  · apply le_antisymm
    · rw [Nat.ceil_le, div_le_iff hdQ]
      have h2 := Nat.lt_div_mul_add (a := num * n + (den - 1)) hden
      set m := (num * n + (den - 1)) / den * den with hm
      have h1 : num * n ≤ m := by omega
      calc ((num * n : ℕ) : ℚ) ≤ (m : ℚ) := by exact_mod_cast h1
        _ = ((num * n + (den - 1)) / den : ℕ) * (den : ℚ) := by
            rw [hm]
            push_cast [Nat.cast_mul]
            ring
    · have hc := Nat.le_ceil (((num * n : ℕ) : ℚ) / (den : ℚ))
      rw [div_le_iff hdQ] at hc
      have h2 : num * n ≤ (Nat.ceil (((num * n : ℕ) : ℚ) / (den : ℚ))) * den := by
        exact_mod_cast hc
      rw [Nat.div_le_iff_le_mul_add_pred hden]
      rw [Nat.mul_comm den]
      omega

lemma specWindow1_eq (n : ℕ) : specWindow1 n = max 5 (ceil15 n) := by
  unfold specWindow1 ceil15
  have h := ceil_frac_eq 15 100 n (by norm_num)
  norm_num at h ⊢
  rw [h]

lemma specWindow2_eq (K n : ℕ) : specWindow2 K n = max K (ceil25 n) := by
  unfold specWindow2 ceil25
  have h := ceil_frac_eq 25 100 n (by norm_num)
  norm_num at h ⊢
  rw [h]

/-- C8: the Slot Filler's per-slot windowing is exactly the spec's
policy: scan the top `max(5, ceil(0.15 n))` entries of the merged ranked
eligible list for the first feasible candidate, widen exactly once to the
top `max(K, ceil(0.25 n))` entries of the re-built list, and, if the
widened scan also fails, the whole attempt fails (the slot loop returns
nothing and the partial lineup is discarded). -/
theorem C8_window_policy :
    (∀ (cfg : RosterCfg) (cap : ℤ) (mpt : ℕ) (pbp : String → List NPlayer)
        (lineup : List NPlayer) (slot : Slot),
      fillSlot cfg cap mpt pbp lineup slot = fillSlotSpec cfg cap mpt pbp lineup slot) ∧
    (∀ (cfg : RosterCfg) (cap : ℤ) (mpt : ℕ) (pbp : String → List NPlayer)
        (lineup : List NPlayer) (slot : Slot) (rest : List Slot),
      fillSlot cfg cap mpt pbp lineup slot = none →
      fillSlots cfg cap mpt pbp (slot :: rest) lineup = none) := by
  constructor
  · intro cfg cap mpt pbp lineup slot
    simp only [fillSlot, fillSlotSpec, specWindow1_eq, specWindow2_eq]
  · intro cfg cap mpt pbp lineup slot rest h
    simp only [fillSlots, h]

lemma fillSlots_nodup (cfg : RosterCfg) (cap : ℤ) (mpt : ℕ)
    (pbp : String → List NPlayer) :
    ∀ slots lineup full, fillSlots cfg cap mpt pbp slots lineup = some full →
      (takenIds lineup).Nodup → (takenIds full).Nodup := by
  intro slots
  induction slots with
  | nil =>
    intro lineup full h hnd
    cases h
    exact hnd
  | cons slot rest ih =>
    intro lineup full h hnd
    simp only [fillSlots] at h
    split at h
    next => exact absurd h (by simp)
    next p hp =>
      refine ih (lineup ++ [p]) full h ?_
      have hid := (canAdd_true (fillSlot_some hp).2).1
      rw [takenIds_append]
      refine List.nodup_append.mpr ⟨hnd, by simp, ?_⟩
      intro a ha
      simp only [List.mem_singleton]
      intro heq
      exact hid (heq ▸ ha)

lemma build_nodupIds {players : List Player} {cfg : RosterCfg} {salaryCap : ℤ}
    {noise temp : ℚ} {mpt tries : ℕ} {draws : ℕ → ℕ → ℚ}
    {perms : ℕ → String → List NPlayer → List NPlayer} :
    ∀ res, buildLineupStrict players cfg salaryCap noise temp mpt tries draws perms =
        some res → (res.lineup.map (fun p => p.id)).Nodup := by
  refine buildLineupStrict_prop _ ?_
  intro i res hres
  obtain ⟨full, hfill, -, -, rfl⟩ := attemptLineup_some hres
  have h := fillSlots_nodup cfg (effCap salaryCap cfg) mpt _ cfg.slots [] full hfill
    (by simp [takenIds])
  show ((full.map (fun p => p.base)).map (fun p => p.id)).Nodup
  rw [List.map_map]
  exact h

lemma filter_mem_length_comm {a b : List String} (ha : a.Nodup) (hb : b.Nodup) :
    (b.filter (fun i => decide (i ∈ a))).length =
      (a.filter (fun i => decide (i ∈ b))).length := by
  have h1 : (b.filter (fun i => decide (i ∈ a))).Nodup := hb.filter _
  have h2 : (a.filter (fun i => decide (i ∈ b))).Nodup := ha.filter _
  rw [← List.toFinset_card_of_nodup h1, ← List.toFinset_card_of_nodup h2]
  congr 1
  ext x
  simp only [List.mem_toFinset, List.mem_filter, decide_eq_true_eq]
  tauto

lemma symDiffSize_comm {A B : List Player}
    (hA : (A.map (fun p => p.id)).Nodup) (hB : (B.map (fun p => p.id)).Nodup) :
    symDiffSize A B = symDiffSize B A := by
  unfold symDiffSize
  have h1 : ∀ (X Y : List Player),
      (Y.filter (fun p => decide (p.id ∈ X.map (fun q => q.id)))).length =
        ((Y.map (fun p => p.id)).filter
          (fun i => decide (i ∈ X.map (fun q => q.id)))).length := by
    intro X Y
    rw [List.filter_map, List.length_map]
    rfl
  rw [h1 A B, h1 B A, filter_mem_length_comm hA hB]
  ring

lemma uniqKey_eq_of_perm {A B : List Player}
    (h : (A.map (fun p => p.id)).Perm (B.map (fun p => p.id))) :
    uniqKey A = uniqKey B := by
  unfold uniqKey
  congr 1
  have htrans : ∀ a b c : String, decide (a ≤ b) = true → decide (b ≤ c) = true →
      decide (a ≤ c) = true := by
    intro a b c h1 h2
    exact decide_eq_true (le_trans (of_decide_eq_true h1) (of_decide_eq_true h2))
  have htot : ∀ a b : String, (decide (a ≤ b) || decide (b ≤ a)) = true := by
    intro a b
    rcases le_total a b with hab | hab
    · simp [hab]
    · simp [hab]
  have hs1 := @List.sorted_mergeSort String (fun a b => decide (a ≤ b)) htrans htot
    (A.map (fun p => p.id))
  have hs2 := @List.sorted_mergeSort String (fun a b => decide (a ≤ b)) htrans htot
    (B.map (fun p => p.id))
  refine @List.eq_of_perm_of_sorted String (fun a b => a ≤ b) ?_ _ _ ?_ ?_ ?_
  · infer_instance
  · exact (List.mergeSort_perm _ _).trans (h.trans (List.mergeSort_perm _ _).symm)
  · exact hs1.imp (fun hab => of_decide_eq_true hab)
  · exact hs2.imp (fun hab => of_decide_eq_true hab)

lemma acceptOk_true {out : List LineupResult} {seen : List String} {minDiff : ℤ}
    {cand : LineupResult} (h : acceptOk out seen minDiff cand = true) :
    (∀ L ∈ out, minDiff ≤ symDiffSize L.lineup cand.lineup) ∧
      uniqKey cand.lineup ∉ seen := by
  simp only [acceptOk, Bool.and_eq_true, List.all_eq_true, decide_eq_true_eq] at h
  exact ⟨h.1, h.2⟩

lemma genStepState_out_eq (minDiff : ℤ) (st : GenState) (cand : LineupResult) :
    (genStepState minDiff st cand).out =
      if acceptOk st.out st.seen minDiff cand then st.out ++ [cand] else st.out := by
  simp only [genStepState]
  split_ifs <;> rfl

lemma genStepState_seen_eq (minDiff : ℤ) (st : GenState) (cand : LineupResult) :
    (genStepState minDiff st cand).seen =
      if acceptOk st.out st.seen minDiff cand then st.seen ++ [uniqKey cand.lineup]
      else st.seen := by
  simp only [genStepState]
  split_ifs <;> rfl

lemma genLoop_pairwise (players : List Player) (cfg : RosterCfg) (salaryCap : ℤ)
    (mpt count : ℕ) (minDiff : ℤ) (tries : ℕ) (draws : ℕ → ℕ → ℕ → ℚ)
    (perms : ℕ → ℕ → String → List NPlayer → List NPlayer) :
    ∀ (fuel : ℕ) (st : GenState),
      List.Pairwise (fun L M : LineupResult =>
        minDiff ≤ symDiffSize L.lineup M.lineup ∧
          uniqKey L.lineup ≠ uniqKey M.lineup) st.out →
      (∀ L ∈ st.out, uniqKey L.lineup ∈ st.seen) →
      List.Pairwise (fun L M : LineupResult =>
        minDiff ≤ symDiffSize L.lineup M.lineup ∧
          uniqKey L.lineup ≠ uniqKey M.lineup)
        (genLoop players cfg salaryCap mpt count minDiff tries draws perms fuel st).1 := by
  intro fuel
  induction fuel with
  | zero =>
    intro st hp hs
    simpa [genLoop] using hp
  | succ n ih =>
    intro st hp hs
    simp only [genLoop]
    by_cases hc : count ≤ st.out.length
    · rw [if_pos hc]
      exact hp
    · rw [if_neg hc]
      rcases hbd : buildLineupStrict players cfg salaryCap st.noise st.temp mpt tries
          (draws st.it) (perms st.it) with _ | cand
      · exact hp
      · refine ih (genStepState minDiff st cand) ?_ ?_
        · rw [genStepState_out_eq]
          by_cases hacc : acceptOk st.out st.seen minDiff cand = true
          · rw [if_pos hacc]
            refine List.pairwise_append.mpr ⟨hp, by simp, ?_⟩
            intro L hL M hM
            have hMc : M = cand := List.mem_singleton.mp hM
            obtain ⟨hdiff, hkey⟩ := acceptOk_true hacc
            refine ⟨hMc ▸ hdiff L hL, ?_⟩
            intro heq
            exact hkey (hMc ▸ heq ▸ hs L hL)
          · rw [if_neg hacc]
            exact hp
        · rw [genStepState_out_eq, genStepState_seen_eq]
          by_cases hacc : acceptOk st.out st.seen minDiff cand = true
          · rw [if_pos hacc, if_pos hacc]
            intro L hL
            rcases List.mem_append.mp hL with hL | hL
            · exact List.mem_append.mpr (Or.inl (hs L hL))
            · have hLc : L = cand := List.mem_singleton.mp hL
              exact List.mem_append.mpr (Or.inr (by simp [hLc]))
          · rw [if_neg hacc, if_neg hacc]
            exact hs

/-- C4: in every multi-lineup response, any two distinct returned lineups
are at symmetric-difference distance at least `minDiff` (in both
argument orders of the source's `symDiffSize`), and no two returned
lineups carry the same member id-set. -/
theorem C4_diversity_guarantee
    (players : List Player) (cfg : RosterCfg) (salaryCap : ℤ) (mpt count : ℕ)
    (minDiff : ℤ) (tries : ℕ) (noise temp : ℚ) (draws : ℕ → ℕ → ℕ → ℚ)
    (perms : ℕ → ℕ → String → List NPlayer → List NPlayer) (fuel : ℕ) :
    List.Pairwise
      (fun A B : LineupResult =>
        minDiff ≤ symDiffSize A.lineup B.lineup ∧
        minDiff ≤ symDiffSize B.lineup A.lineup ∧
        ¬ (A.lineup.map (fun p => p.id)).Perm (B.lineup.map (fun p => p.id)))
      (generateLineups players cfg salaryCap mpt count minDiff tries noise temp draws
        perms fuel) := by
  unfold generateLineups
  have hnd : ∀ L ∈ (genLoop players cfg salaryCap mpt count minDiff tries draws perms
      fuel (initGenState noise temp)).1, (L.lineup.map (fun p => p.id)).Nodup := by
    refine genLoop_prop (fun r => (r.lineup.map (fun p => p.id)).Nodup) ?_ fuel _ ?_
    · intro n2 t2 it r hr
      exact build_nodupIds r hr
    · intro L hL
      exact absurd hL (by simp [initGenState])
  have hp0 := genLoop_pairwise players cfg salaryCap mpt count minDiff tries draws perms
    fuel (initGenState noise temp) (by simp [initGenState]) (by simp [initGenState])
  have hpR : List.Pairwise
      (fun A B : LineupResult =>
        minDiff ≤ symDiffSize A.lineup B.lineup ∧
        minDiff ≤ symDiffSize B.lineup A.lineup ∧
        ¬ (A.lineup.map (fun p => p.id)).Perm (B.lineup.map (fun p => p.id)))
      (genLoop players cfg salaryCap mpt count minDiff tries draws perms fuel
        (initGenState noise temp)).1 := by
    refine hp0.imp_of_mem ?_
    intro a b ha hb hab
    refine ⟨hab.1, ?_, ?_⟩
    · rw [symDiffSize_comm (hnd b hb) (hnd a ha)]
      exact hab.1
    · intro hperm12
      exact hab.2 (uniqKey_eq_of_perm hperm12)
  have hsymm : ∀ {x y : LineupResult},
      (minDiff ≤ symDiffSize x.lineup y.lineup ∧
        minDiff ≤ symDiffSize y.lineup x.lineup ∧
        ¬ (x.lineup.map (fun p => p.id)).Perm (y.lineup.map (fun p => p.id))) →
      (minDiff ≤ symDiffSize y.lineup x.lineup ∧
        minDiff ≤ symDiffSize x.lineup y.lineup ∧
        ¬ (y.lineup.map (fun p => p.id)).Perm (x.lineup.map (fun p => p.id))) := by
    intro x y h
    exact ⟨h.2.1, h.1, fun hp => h.2.2 hp.symm⟩
  exact ((List.mergeSort_perm _ outLe).pairwise_iff hsymm).mpr hpR

lemma eligibleFor_empty {pbp : String → List NPlayer} {lineup : List NPlayer} :
    ∀ (allow : List String), (∀ pos ∈ allow, pbp pos = []) →
      eligibleFor pbp lineup allow = [] := by
  intro allow
  induction allow with
  | nil => intro _; rfl
  | cons a rest ih =>
    intro h
    unfold eligibleFor
    simp only [List.map_cons, List.flatten_cons]
    rw [h a (by simp), List.filter_nil, List.nil_append]
    exact ih (fun pos hpos => h pos (List.mem_cons_of_mem a hpos))

lemma fillSlot_none_of_empty {cfg : RosterCfg} {cap : ℤ} {mpt : ℕ}
    {pbp : String → List NPlayer} {lineup : List NPlayer} {slot : Slot}
    (h : eligibleFor pbp lineup slot.allow = []) :
    fillSlot cfg cap mpt pbp lineup slot = none := by
  simp [fillSlot, h]

lemma fillSlots_none_starved (cfg : RosterCfg) (cap : ℤ) (mpt : ℕ)
    (pbp : String → List NPlayer) :
    ∀ (slots : List Slot),
      (∃ slot ∈ slots, ∀ pos ∈ slot.allow, pbp pos = []) →
      ∀ lineup, fillSlots cfg cap mpt pbp slots lineup = none := by
  intro slots
  induction slots with
  | nil =>
    rintro ⟨slot, hmem, -⟩
    exact absurd hmem (List.not_mem_nil slot)
  | cons s rest ih =>
    rintro ⟨slot, hmem, hempty⟩ lineup
    rcases List.mem_cons.mp hmem with rfl | hmem
    · simp only [fillSlots]
      rw [fillSlot_none_of_empty (eligibleFor_empty slot.allow hempty)]
    · simp only [fillSlots]
      rcases hfs : fillSlot cfg cap mpt pbp lineup s with _ | p
      · rfl
      · exact ih ⟨slot, hmem, hempty⟩ (lineup ++ [p])

lemma fillSlots_none_capLow (cfg : RosterCfg) (cap : ℤ) (mpt : ℕ)
    (pbp : String → List NPlayer)
    (hsal : ∀ pos q, q ∈ pbp pos → cap < q.base.salary) :
    ∀ slot rest, fillSlots cfg cap mpt pbp (slot :: rest) [] = none := by
  intro slot rest
  have hall : ∀ q ∈ eligibleFor pbp [] slot.allow,
      canAdd cfg cap mpt [] q (addingPosFor slot.allow q) = false := by
    intro q hq
    obtain ⟨pos, -, hmem, -⟩ := mem_eligibleFor.mp hq
    have hlt := hsal pos q hmem
    unfold canAdd
    rw [if_neg (by simp [takenIds])]
    rw [if_pos (by simpa [usedSalary] using hlt)]
  have h1 : ∀ (n : ℕ), (List.take n (eligibleFor pbp [] slot.allow)).find?
      (fun p => canAdd cfg cap mpt [] p (addingPosFor slot.allow p)) = none := by
    intro n
    rw [List.find?_eq_none]
    intro x hx
    rw [hall x (List.take_subset n _ hx)]
    simp
  simp only [fillSlots, fillSlot, h1]

lemma attemptLineup_none {cfg : RosterCfg} {cap : ℤ} {mpt : ℕ}
    {pbp : String → List NPlayer}
    (h : fillSlots cfg cap mpt pbp cfg.slots [] = none) :
    attemptLineup cfg cap mpt pbp = none := by
  unfold attemptLineup
  rw [h]

lemma build_none_of_attempts {players : List Player} {cfg : RosterCfg} {salaryCap : ℤ}
    {noise temp : ℚ} {mpt tries : ℕ} {draws : ℕ → ℕ → ℚ}
    {perms : ℕ → String → List NPlayer → List NPlayer}
    (h : ∀ i, attemptLineup cfg (effCap salaryCap cfg) mpt
      (attemptPools players noise temp (draws i) (perms i)) = none) :
    buildLineupStrict players cfg salaryCap noise temp mpt tries draws perms = none := by
  unfold buildLineupStrict
  have hfold : ∀ (l : List ℕ),
      l.foldl (fun best i => updateBest best
        (attemptLineup cfg (effCap salaryCap cfg) mpt
          (attemptPools players noise temp (draws i) (perms i)))) none = none := by
    intro l
    induction l with
    | nil => rfl
    | cons i rest ih =>
      rw [List.foldl_cons, h i]
      exact ih
  exact hfold _

lemma attemptPools_empty {noise temp : ℚ} {draw : ℕ → ℚ}
    {perm : String → List NPlayer → List NPlayer}
    (hperm : ∀ pos l x, x ∈ perm pos l → x ∈ l) (pos : String) :
    attemptPools [] noise temp draw perm pos = [] := by
  simp only [attemptPools, noisedPool, posBucket, List.filter_nil]
  split
  · simp [sortByValue]
  · exact List.eq_nil_iff_forall_not_mem.mpr
      (fun x hx => absurd (hperm pos [] x hx) (List.not_mem_nil x))

lemma attemptPools_no_pos {players : List Player} {noise temp : ℚ} {draw : ℕ → ℚ}
    {perm : String → List NPlayer → List NPlayer}
    (hperm : ∀ pos l x, x ∈ perm pos l → x ∈ l) {pos : String}
    (hno : ∀ q ∈ players, q.pos ≠ pos) :
    attemptPools players noise temp draw perm pos = [] := by
  have hbucket : posBucket (noisedPool noise draw players 0) pos = [] := by
    rw [List.eq_nil_iff_forall_not_mem]
    intro x hx
    obtain ⟨hxm, hxpos⟩ := mem_posBucket hx
    exact hno x.base (mem_noisedPool_base hxm) hxpos
  simp only [attemptPools, hbucket]
  split
  · simp [sortByValue]
  · exact List.eq_nil_iff_forall_not_mem.mpr
      (fun x hx => absurd (hperm pos [] x hx) (List.not_mem_nil x))

lemma build_members {players : List Player} {cfg : RosterCfg} {salaryCap : ℤ}
    {noise temp : ℚ} {mpt tries : ℕ} {draws : ℕ → ℕ → ℚ}
    {perms : ℕ → String → List NPlayer → List NPlayer}
    (hperm : ∀ i pos l x, x ∈ perms i pos l → x ∈ l) :
    ∀ res, buildLineupStrict players cfg salaryCap noise temp mpt tries draws perms =
        some res → ∀ m ∈ res.lineup, m ∈ players := by
  refine buildLineupStrict_prop _ ?_
  intro i res hres
  obtain ⟨full, hfill, -, -, rfl⟩ := attemptLineup_some hres
  intro m hm
  obtain ⟨q, hq, rfl⟩ := List.mem_map.mp hm
  obtain ⟨picks, hpe, hpool⟩ :=
    fillSlots_sub cfg (effCap salaryCap cfg) mpt _ cfg.slots [] full hfill
  have hfp : full = picks := by simpa using hpe
  obtain ⟨pos, hmem⟩ := hpool q (hfp ▸ hq)
  exact attemptPools_baseMem (fun pos l x hx => hperm i pos l x hx) pos q hmem

/-- C6: ordinary infeasibility is data, not an exception (every function
of the embedding is total by construction): against an empty pool, a pool
in which some slot's allowed categories have no candidates at all, a cap
below every candidate's salary, or, in general, a cap and pool admitting
no feasible combination at all (no list of pool members satisfies the
seven feasibility invariants under the effective cap), every Slot Filler
attempt fails and `buildLineupStrict` returns `none`; the generator then
returns the empty list, and the optimize response reports exactly the
number of lineups actually produced (`count = lineups.length`), never a
padded result. -/
theorem C6_infeasibility_is_data
    (players : List Player) (cfg : RosterCfg) (salaryCap : ℤ) (mpt tries : ℕ)
    (hinf :
      (cfg.slots ≠ [] ∧ players = []) ∨
      (∃ slot ∈ cfg.slots, ∀ q ∈ players, q.pos ∉ slot.allow) ∨
      (cfg.slots ≠ [] ∧ ∀ q ∈ players, effCap salaryCap cfg < q.salary) ∨
      (0 ≤ effCap salaryCap cfg ∧
        ∀ l : List Player, (∀ m ∈ l, m ∈ players) →
          invariantsHold cfg (effCap salaryCap cfg) mpt l = false)) :
    (∀ (noise temp : ℚ) (draws : ℕ → ℕ → ℚ)
        (perms : ℕ → String → List NPlayer → List NPlayer),
      (∀ i pos l x, x ∈ perms i pos l → x ∈ l) →
      buildLineupStrict players cfg salaryCap noise temp mpt tries draws perms = none) ∧
    (∀ (count : ℕ) (minDiff : ℤ) (noise temp : ℚ) (draws : ℕ → ℕ → ℕ → ℚ)
        (perms : ℕ → ℕ → String → List NPlayer → List NPlayer) (fuel : ℕ),
      (∀ it i pos l x, x ∈ perms it i pos l → x ∈ l) →
      generateLineups players cfg salaryCap mpt count minDiff tries noise temp draws
          perms fuel = [] ∧
        optimizeMany players cfg salaryCap mpt count minDiff tries noise temp draws
          perms fuel = ⟨0, []⟩) ∧
    (∀ (players2 : List Player) (count : ℕ) (minDiff : ℤ) (noise temp : ℚ)
        (draws : ℕ → ℕ → ℕ → ℚ)
        (perms : ℕ → ℕ → String → List NPlayer → List NPlayer) (fuel : ℕ),
      (optimizeMany players2 cfg salaryCap mpt count minDiff tries noise temp draws
          perms fuel).count =
        (optimizeMany players2 cfg salaryCap mpt count minDiff tries noise temp draws
          perms fuel).lineups.length) := by
  have hbuild : ∀ (noise temp : ℚ) (draws : ℕ → ℕ → ℚ)
      (perms : ℕ → String → List NPlayer → List NPlayer),
      (∀ i pos l x, x ∈ perms i pos l → x ∈ l) →
      buildLineupStrict players cfg salaryCap noise temp mpt tries draws perms = none := by
    intro noise temp draws perms hperm
    rcases hinf with ⟨hne, hempty⟩ | ⟨slot, hmem, hno⟩ | ⟨hne, hcap⟩ | ⟨hcap0, hall⟩
    · obtain ⟨s0, rest, hslots⟩ := List.exists_cons_of_ne_nil hne
      refine build_none_of_attempts ?_
      intro i
      refine attemptLineup_none ?_
      subst hempty
      refine fillSlots_none_starved cfg _ mpt _ cfg.slots ⟨s0, by rw [hslots]; simp, ?_⟩ []
      intro pos hpos
      exact attemptPools_empty (fun pos l x hx => hperm i pos l x hx) pos
    · refine build_none_of_attempts ?_
      intro i
      refine attemptLineup_none ?_
      refine fillSlots_none_starved cfg _ mpt _ cfg.slots ⟨slot, hmem, ?_⟩ []
      intro pos hpos
      refine attemptPools_no_pos (fun pos l x hx => hperm i pos l x hx) ?_
      intro q hq heq
      exact hno q hq (heq ▸ hpos)
    · obtain ⟨s0, rest, hslots⟩ := List.exists_cons_of_ne_nil hne
      refine build_none_of_attempts ?_
      intro i
      refine attemptLineup_none ?_
      rw [hslots]
      refine fillSlots_none_capLow cfg _ mpt _ ?_ s0 rest
      intro pos q hq
      exact hcap q.base
        (attemptPools_baseMem (fun pos l x hx => hperm i pos l x hx) pos q hq)
    · rcases hres : buildLineupStrict players cfg salaryCap noise temp mpt tries draws
          perms with _ | res
      · rfl
      · exfalso
        have hinv := build_invariants hcap0 noise temp tries draws perms hperm res hres
        have hmem2 := build_members hperm res hres
        rw [hall res.lineup hmem2] at hinv
        exact Bool.false_ne_true hinv
  refine ⟨hbuild, ?_, ?_⟩
  · intro count minDiff noise temp draws perms fuel hperm
    have hloop : ∀ (f : ℕ) (st : GenState), st.out = [] →
        (genLoop players cfg salaryCap mpt count minDiff tries draws perms f st).1 = [] := by
      intro f
      cases f with
      | zero =>
        intro st hst
        simpa [genLoop] using hst
      | succ n =>
        intro st hst
        simp only [genLoop]
        split_ifs with hc
        · exact hst
        · rw [hbuild st.noise st.temp (draws st.it) (perms st.it)
            (fun i pos l x hx => hperm st.it i pos l x hx)]
          exact hst
    have hgen : generateLineups players cfg salaryCap mpt count minDiff tries noise temp
        draws perms fuel = [] := by
      unfold generateLineups
      rw [hloop fuel (initGenState noise temp) rfl]
      simp
    refine ⟨hgen, ?_⟩
    unfold optimizeMany
    split_ifs with hp
    · rfl
    · rw [hgen]
      rfl
  · intro players2 count minDiff noise temp draws perms fuel
    unfold optimizeMany
    split_ifs <;> rfl

lemma poolC2_eval (noise : ℚ) :
    noisedPool noise (fun _ => 0) [pQB] 0 = [⟨pQB, 20⟩] := by
  rcases eq_or_ne noise 0 with h | h <;> simp [noisedPool, pQB, h]

lemma bucketsC2 (noise temp : ℚ) (pos : String) :
    attemptPools [pQB] noise temp (fun _ => 0) (fun _ l => l) pos =
      if pQB.pos = pos then [⟨pQB, 20⟩] else [] := by
  simp only [attemptPools]
  rw [poolC2_eval noise]
  have hb : posBucket [⟨pQB, (20 : ℚ)⟩] pos =
      if pQB.pos = pos then [⟨pQB, 20⟩] else [] := by
    simp [posBucket, List.filter_singleton]
  split
  · rw [hb]
    split_ifs <;> simp [sortByValue, List.mergeSort_singleton]
  · exact hb

lemma attC2_eval (noise temp : ℚ) :
    attemptLineup cfg1 50000 3
      (attemptPools [pQB] noise temp (fun _ => 0) (fun _ l => l)) = some resC2 := by
  have hQB : attemptPools [pQB] noise temp (fun _ => 0) (fun _ l => l) "QB" =
      [⟨pQB, 20⟩] := by
    rw [bucketsC2]
    simp [pQB]
  have hslots : cfg1.slots = [⟨"QB", ["QB"]⟩] := rfl
  simp only [attemptLineup, hslots, fillSlots, fillSlot, eligibleFor, List.map_cons,
    List.map_nil, List.flatten_cons, List.flatten_nil, List.append_nil, hQB]
  simp [canAdd, takenIds, usedSalary, teamCount, addingPosFor, ceil15, ceil25, pQB,
    cfg1, stackOk, resC2]
  norm_num [jsOrQ, fmt2, round_eq]

lemma buildC2_eval (noise temp : ℚ) :
    buildLineupStrict [pQB] cfg1 50000 noise temp 3 1 (fun _ _ => 0) (fun _ _ l => l) =
      some resC2 := by
  have heff : effCap 50000 cfg1 = 50000 := by norm_num [effCap]
  simp only [buildLineupStrict, List.range_succ, List.range_zero, List.nil_append,
    List.foldl_cons, List.foldl_nil, heff]
  rw [attC2_eval noise temp]
  rfl

lemma genStepC2_reject (noise temp : ℚ) (it : ℕ) :
    genStepState 4 ⟨[resC2], [uniqKey resC2.lineup], noise, temp, it⟩ resC2 =
      ⟨[resC2], [uniqKey resC2.lineup], noise * (102 / 100), temp * (102 / 100),
        it + 1⟩ := by
  have hacc : acceptOk [resC2] [uniqKey resC2.lineup] 4 resC2 = false := by
    simp [acceptOk, symDiffSize, resC2, pQB]
  simp [genStepState, hacc]

lemma genStepC2_accept (noise temp : ℚ) :
    genStepState 4 ⟨[], [], noise, temp, 0⟩ resC2 =
      ⟨[resC2], [uniqKey resC2.lineup], noise, temp, 1⟩ := by
  have hacc : acceptOk [] [] 4 resC2 = true := by simp [acceptOk]
  simp [genStepState, hacc]

lemma genLoopC2_stuck :
    ∀ (fuel : ℕ) (noise temp : ℚ) (it : ℕ),
      (genLoop [pQB] cfg1 50000 3 2 4 1 (fun _ _ _ => 0) (fun _ _ _ l => l) fuel
        ⟨[resC2], [uniqKey resC2.lineup], noise, temp, it⟩).2 = false := by
  intro fuel
  induction fuel with
  | zero =>
    intro noise temp it
    simp [genLoop]
  | succ n ih =>
    intro noise temp it
    simp only [genLoop]
    rw [if_neg (by simp)]
    simp only [buildC2_eval noise temp]
    rw [genStepC2_reject noise temp it]
    exact ih (noise * (102 / 100)) (temp * (102 / 100)) (it + 1)

lemma genLoopC2_init (fuel : ℕ) :
    (genLoop [pQB] cfg1 50000 3 2 4 1 (fun _ _ _ => 0) (fun _ _ _ l => l) fuel
      (initGenState (6 / 5) (3 / 5))).2 = false := by
  cases fuel with
  | zero => simp [genLoop, initGenState]
  | succ n =>
    simp only [genLoop, initGenState]
    rw [if_neg (by simp)]
    simp only [buildC2_eval (6 / 5) (3 / 5)]
    rw [genStepC2_accept (6 / 5) (3 / 5)]
    exact genLoopC2_stuck n (6 / 5) (3 / 5) 1

/-- C2 counterexample: against the one-player pool `[pQB]` with the
one-slot template `cfg1`, requesting 2 lineups with the route defaults
`noise = 1.2`, `temperature = 0.6`, `minDiff = 4`, one try per
invocation and zero-valued noise draws, every Slot Filler invocation
succeeds with the same single feasible lineup, the duplicate gate rejects
it forever, and the `while` loop of `generateLineups` never reaches one
of its exits: no amount of fuel makes the loop terminate, because the
code has no global attempt ceiling. -/
theorem C2_counterexample :
    ¬ ∃ fuel, (genLoop [pQB] cfg1 50000 3 2 4 1 (fun _ _ _ => 0) (fun _ _ _ l => l)
      fuel (initGenState (6 / 5) (3 / 5))).2 = true := by
  rintro ⟨fuel, hfuel⟩
  rw [genLoopC2_init fuel] at hfuel
  exact Bool.false_ne_true hfuel

/-- C2 amended: the Diversity Generator stops as soon as `count` lineups
have been accepted or a Slot Filler invocation returns no lineup,
whichever comes first; it has no global attempt ceiling, so when every
invocation keeps returning a lineup rejected as a duplicate or as
insufficiently different, the loop never exits (see the counterexample).
This theorem proves the two genuine exits: whenever the accepted list has
reached `count`, or the next build fails, the loop returns the accepted
list immediately. -/
theorem C2_amended_stop_conditions
    (players : List Player) (cfg : RosterCfg) (salaryCap : ℤ) (mpt count : ℕ)
    (minDiff : ℤ) (tries : ℕ) (draws : ℕ → ℕ → ℕ → ℚ)
    (perms : ℕ → ℕ → String → List NPlayer → List NPlayer) (st : GenState)
    (fuel : ℕ) (hfuel : 1 ≤ fuel)
    (h : count ≤ st.out.length ∨
      buildLineupStrict players cfg salaryCap st.noise st.temp mpt tries (draws st.it)
        (perms st.it) = none) :
    genLoop players cfg salaryCap mpt count minDiff tries draws perms fuel st =
      (st.out, true) := by
  obtain ⟨n, rfl⟩ : ∃ n, fuel = n + 1 := ⟨fuel - 1, by omega⟩
  simp only [genLoop]
  rcases h with h | h
  · rw [if_pos h]
  · by_cases hc : count ≤ st.out.length
    · rw [if_pos hc]
    · rw [if_neg hc, h]

lemma buildC2_empty :
    buildLineupStrict [] cfg1 50000 (6 / 5) (3 / 5) 3 1 (fun _ _ => 0)
      (fun _ _ l => l) = none := by
  refine build_none_of_attempts ?_
  intro i
  refine attemptLineup_none ?_
  refine fillSlots_none_starved cfg1 _ 3 _ cfg1.slots
    ⟨⟨"QB", ["QB"]⟩, by simp [cfg1], ?_⟩ []
  intro pos hpos
  exact attemptPools_empty (fun pos l x hx => hx) pos

/-- Witness for the amended C2: a failing build makes the loop exit at
once with the (empty) accepted list. -/
theorem C2_amended_witness :
    genLoop [] cfg1 50000 3 2 4 1 (fun _ _ _ => 0) (fun _ _ _ l => l) 1
      (initGenState (6 / 5) (3 / 5)) = ([], true) :=
  C2_amended_stop_conditions [] cfg1 50000 3 2 4 1 (fun _ _ _ => 0)
    (fun _ _ _ l => l) (initGenState (6 / 5) (3 / 5)) 1 (by decide)
    (Or.inr buildC2_empty)

lemma capW_infeasible :
    ∀ l : List Player, (∀ m ∈ l, m ∈ [pQB, pWR]) →
      invariantsHold cfgW (effCap 10000 cfgW) 3 l = false := by
  intro l hmem
  rcases hB : invariantsHold cfgW (effCap 10000 cfgW) 3 l with _ | _
  · rfl
  · exfalso
    simp only [invariantsHold, Bool.and_eq_true] at hB
    obtain ⟨⟨⟨⟨⟨hsm, hnd⟩, hsal⟩, htm⟩, hst⟩, hdst⟩ := hB
    rcases l with _ | ⟨a, l2⟩
    · simp [slotsMatch, cfgW] at hsm
    rcases l2 with _ | ⟨b, l3⟩
    · simp [slotsMatch, cfgW] at hsm
    rcases l3 with _ | ⟨c, l4⟩
    swap
    · simp [slotsMatch, cfgW] at hsm
    simp only [slotsMatch, cfgW, Bool.and_eq_true, decide_eq_true_eq,
      List.mem_singleton] at hsm
    have ha : a ∈ [pQB, pWR] := hmem a (by simp)
    have hb : b ∈ [pQB, pWR] := hmem b (by simp)
    have haQB : a = pQB := by
      rcases List.mem_cons.mp ha with h | h
      · exact h
      · have hw : a = pWR := List.mem_singleton.mp h
        rw [hw] at hsm
        simp [pWR] at hsm
    have hbWR : b = pWR := by
      rcases List.mem_cons.mp hb with h | h
      · rw [h] at hsm
        simp [pQB] at hsm
      · exact List.mem_singleton.mp h
    rw [haQB, hbWR] at hsal
    simp [pQB, pWR, effCap] at hsal

/-- Witness for C6: the infeasibility hypothesis is satisfied both by the
empty pool with a non-empty slot list and by a cap (10000) that admits
each single candidate but no feasible full lineup; the failing builds and
the empty generation result are obtained concretely. -/
theorem C6_witness :
    buildLineupStrict [] cfg1 50000 1 0 3 1 drawsZero permId = none ∧
      generateLineups [] cfg1 50000 3 2 4 1 (6 / 5) (3 / 5) (fun _ _ _ => 0)
        (fun _ _ _ l => l) 5 = [] ∧
      buildLineupStrict [pQB, pWR] cfgW 10000 0 0 3 1 drawsZero permId = none :=
  ⟨(C6_infeasibility_is_data [] cfg1 50000 3 1 (Or.inl ⟨by decide, rfl⟩)).1
      1 0 drawsZero permId (fun _ _ _ _ hx => hx),
    ((C6_infeasibility_is_data [] cfg1 50000 3 1 (Or.inl ⟨by decide, rfl⟩)).2.1
      2 4 (6 / 5) (3 / 5) (fun _ _ _ => 0) (fun _ _ _ l => l) 5
      (fun _ _ _ _ _ hx => hx)).1,
    (C6_infeasibility_is_data [pQB, pWR] cfgW 10000 3 1
        (Or.inr (Or.inr (Or.inr ⟨by decide, capW_infeasible⟩)))).1
      0 0 drawsZero permId (fun _ _ _ _ hx => hx)⟩

end FantasySim
